import Mathlib

/-!
Verification development for the IBD segment-calling engine
(`IBDnetwork/ibd.py`).

The Python source is shallowly embedded: Python floats become `ℚ`,
Python ints become `ℤ` (genomic coordinates, lengths, base-pair
thresholds) or `ℕ` (window indices, window counts, `max_gap`,
`min_windows`, which the program only ever uses as non-negative
counters), dict lookups become association-list lookups with the same
last-write-wins semantics, and the imperative scan loops become folds
over an explicit state record.  Field `end` of the Python records is
called `stop` here because `end` is a Lean keyword.
-/

/-- A genomic window `(chr, start, end, length)` (namedtuple `Win`,
`build_windows`, ibd.py line 42). -/
structure Win where
  chr : String
  start : ℤ
  stop : ℤ
  length : ℤ
deriving DecidableEq, Repr

/-- Default window used to embed Python list indexing; all reachable
accesses are in bounds, so the default is never observed. -/
def winD (wins : List Win) (i : ℕ) : Win :=
  wins.getD i ⟨"", 0, 0, 0⟩

/-- Segment record produced by `finalize_segment` (ibd.py lines 268-278):
the RLE caller's output dictionary. -/
structure RleSeg where
  chr : String
  start : ℤ
  stop : ℤ
  n_windows : ℕ
  covered_bp : ℤ
  mean_ident : ℚ
  min_ident : ℚ
  n_gaps : ℕ
  frac_called : ℚ
deriving DecidableEq, Repr

/-- Segment record produced by `summarize_segment` (ibd.py lines 232-241):
the seed-and-extend caller's output dictionary (no `n_gaps` field). -/
structure SeedSeg where
  chr : String
  start : ℤ
  stop : ℤ
  n_windows : ℕ
  covered_bp : ℤ
  mean_ident : ℚ
  min_ident : ℚ
  frac_called : ℚ
deriving DecidableEq, Repr

/-- `ident_by_idx = {idx: ident for idx, ident, _ in track_list}`
(ibd.py lines 67 and 130): a dict build is a left fold in which later
entries overwrite earlier ones. -/
def identByIdx (track_list : List (ℕ × ℚ × ℤ)) (i : ℕ) : Option ℚ :=
  track_list.foldl (fun acc t => if t.1 = i then some t.2.1 else acc) none

/-- `sum(w.length for w in wins[s:e+1])` (ibd.py lines 227 and 263).
Out-of-range indices contribute the default window's length `0`,
exactly matching Python's truncating slice. -/
def covered_bp_calc (wins : List Win) (s e : ℕ) : ℤ :=
  ((List.range' s (e + 1 - s)).map (fun k => (winD wins k).length)).sum

/-- Qualification test of the RLE caller (ibd.py lines 71-72):
`ident >= min_id or (drop_tolerance > 0 and ident >= min_id - drop_tolerance)`,
with a missing window never qualifying. -/
def qualifies (min_id drop_tolerance : ℚ) (ident : Option ℚ) : Bool :=
  match ident with
  | none => false
  | some q => decide (min_id ≤ q) || (decide (0 < drop_tolerance) && decide (min_id - drop_tolerance ≤ q))

/-- Mutable scan state of `rle_segments_for_pair` (ibd.py lines 74-79).
`current` holds the active run's `(start_idx, end_idx)`. -/
structure RleState where
  segments : List RleSeg
  current : Option (ℕ × ℕ)
  gaps : ℕ
  called : ℕ
  ident_sum : ℚ
  min_ident : ℚ
deriving Repr

/-- `finalize_segment` (ibd.py lines 258-279). -/
def finalize_segment (cur : ℕ × ℕ) (wins : List Win) (called : ℕ)
    (ident_sum min_ident : ℚ) (min_windows : ℕ) (min_len_bp : ℤ)
    (gaps_allowed : ℕ) : Option RleSeg :=
  let s := cur.1
  let e := cur.2
  let n_windows := e + 1 - s
  let start_bp := (winD wins s).start
  let end_bp := (winD wins e).stop
  let covered_bp := covered_bp_calc wins s e
  let mean_ident := if 0 < called then ident_sum / (called : ℚ) else 0
  let frac_called := if 0 < n_windows then (called : ℚ) / (n_windows : ℚ) else 0
  if min_windows ≤ n_windows ∧ min_len_bp ≤ covered_bp then
    some { chr := (winD wins s).chr, start := start_bp, stop := end_bp,
           n_windows := n_windows, covered_bp := covered_bp,
           mean_ident := mean_ident, min_ident := min_ident,
           n_gaps := gaps_allowed, frac_called := frac_called }
  else none

/-- One iteration of the RLE scan loop (ibd.py lines 81-115), processing
window index `i`. -/
def rleStep (wins : List Win) (min_id : ℚ) (max_gap min_windows : ℕ)
    (min_len_bp : ℤ) (treat_missing_as_gap : Bool) (drop_tolerance : ℚ)
    (ident_by_idx : ℕ → Option ℚ) (st : RleState) (i : ℕ) : RleState :=
  let ident := ident_by_idx i
  let missing := ident.isNone
  let good := !missing && qualifies min_id drop_tolerance ident
  match st.current with
  | none =>
      if good then
        { st with current := some (i, i), gaps := 0, called := 1,
                  ident_sum := ident.getD 0, min_ident := ident.getD 0 }
      else st
  | some (s, _e) =>
      let extend_condition := good || (missing && treat_missing_as_gap)
      if extend_condition then
        let gaps' := if missing then st.gaps + 1 else st.gaps
        let called' := if missing then st.called else st.called + 1
        let sum' := if missing then st.ident_sum else st.ident_sum + ident.getD 0
        let minI' := if missing then st.min_ident else min st.min_ident (ident.getD 0)
        if max_gap < gaps' then
          -- finalize without including this window
          let seg := finalize_segment (s, i - 1) wins called' sum' minI'
                       min_windows min_len_bp max_gap
          { segments := st.segments ++ seg.toList, current := none,
            gaps := 0, called := 0, ident_sum := 0, min_ident := 1 }
        else
          { st with current := some (s, i), gaps := gaps', called := called',
                    ident_sum := sum', min_ident := minI' }
      else
        let seg := finalize_segment (s, _e) wins st.called st.ident_sum
                     st.min_ident min_windows min_len_bp st.gaps
        if good then
          { segments := st.segments ++ seg.toList, current := some (i, i),
            gaps := 0, called := 1, ident_sum := ident.getD 0,
            min_ident := ident.getD 0 }
        else
          { segments := st.segments ++ seg.toList, current := none,
            gaps := 0, called := 0, ident_sum := 0, min_ident := 1 }

/-- Initial scan state (ibd.py lines 74-79). -/
def rleInit : RleState :=
  { segments := [], current := none, gaps := 0, called := 0,
    ident_sum := 0, min_ident := 1 }

/-- The scan of windows `0, 1, ..., n-1` of `rle_segments_for_pair`. -/
def rleScan (wins : List Win) (min_id : ℚ) (max_gap min_windows : ℕ)
    (min_len_bp : ℤ) (treat_missing_as_gap : Bool) (drop_tolerance : ℚ)
    (ident_by_idx : ℕ → Option ℚ) (n : ℕ) : RleState :=
  (List.range n).foldl
    (rleStep wins min_id max_gap min_windows min_len_bp treat_missing_as_gap
      drop_tolerance ident_by_idx) rleInit

/-- `rle_segments_for_pair` (ibd.py lines 64-121). -/
def rle_segments_for_pair (track_list : List (ℕ × ℚ × ℤ)) (wins : List Win)
    (min_id : ℚ) (max_gap min_windows : ℕ) (min_len_bp : ℤ)
    (treat_missing_as_gap : Bool) (drop_tolerance : ℚ) : List RleSeg :=
  let ident_by_idx := identByIdx track_list
  let st := rleScan wins min_id max_gap min_windows min_len_bp
              treat_missing_as_gap drop_tolerance ident_by_idx wins.length
  match st.current with
  | some cur =>
      st.segments ++ (finalize_segment cur wins st.called st.ident_sum
        st.min_ident min_windows min_len_bp st.gaps).toList
  | none => st.segments

/-- The rational 0.9950 = 199/200, in reduced constructor form so that the
kernel can evaluate comparisons on it. -/
def q9950 : ℚ := ⟨199, 200, by decide, by decide⟩

/-- The rational 0.9995 = 1999/2000. -/
def q9995 : ℚ := ⟨1999, 2000, by decide, by decide⟩

/-- The rational 0.9997 = 9997/10000. -/
def q9997 : ℚ := ⟨9997, 10000, by decide, by decide⟩

/-- The rational 0.9998 = 4999/5000. -/
def q9998 : ℚ := ⟨4999, 5000, by decide, by decide⟩

/-- Ten consecutive 5000 bp windows on chr1 (the concrete RLE scenario). -/
def wins10 : List Win :=
  (List.range 10).map (fun k => ⟨"chr1", 5000 * k, 5000 * (k + 1), 5000⟩)

/-- Track for the concrete RLE scenario: identities
0.9950, 0.9998, 0.9998, 0.9998, 0.9997, 0.9998, 0.9998, 0.9950, 0.9950, 0.9950. -/
def track10 : List (ℕ × ℚ × ℤ) :=
  [(0, q9950, 5000), (1, q9998, 5000), (2, q9998, 5000),
   (3, q9998, 5000), (4, q9997, 5000), (5, q9998, 5000),
   (6, q9998, 5000), (7, q9950, 5000), (8, q9950, 5000),
   (9, q9950, 5000)]

example :
    (rle_segments_for_pair track10 wins10 q9995 1 3 5000 false 0).map
      (fun s => (s.start, s.stop, s.n_windows, s.covered_bp)) =
    [(5000, 35000, 6, 30000)] := by decide

/-- Length of the maximal run of windows with identity at or above
`seed_thr` starting at `j` (the inner while loop of ibd.py lines 150-151).
The fuel argument dominates `n - j`, so the recursion is structural. -/
def seedRun (ident_by_idx : ℕ → Option ℚ) (seed_thr : ℚ) (n : ℕ) :
    ℕ → ℕ → ℕ
  | 0, _ => 0
  | fuel + 1, j =>
    if j < n then
      match ident_by_idx j with
      | some q =>
          if seed_thr ≤ q then seedRun ident_by_idx seed_thr n fuel (j + 1) + 1
          else 0
      | none => 0
    else 0

/-- Seed discovery scan (ibd.py lines 143-156): maximal runs of at least
`seed_k` consecutive windows with identity at or above `seed_thr`,
recorded as inclusive index pairs. -/
def findSeedsAux (ident_by_idx : ℕ → Option ℚ) (seed_thr : ℚ)
    (seed_k n : ℕ) : ℕ → ℕ → List (ℕ × ℕ)
  | 0, _ => []
  | fuel + 1, i =>
    if i < n then
      match ident_by_idx i with
      | some q =>
          if seed_thr ≤ q then
            let run := seedRun ident_by_idx seed_thr n (n - i) i
            (if seed_k ≤ run then [(i, i + run - 1)] else []) ++
              findSeedsAux ident_by_idx seed_thr seed_k n fuel (i + run)
          else findSeedsAux ident_by_idx seed_thr seed_k n fuel (i + 1)
      | none => findSeedsAux ident_by_idx seed_thr seed_k n fuel (i + 1)
    else []

/-- `findSeedsAux` with enough fuel: the outer while loop advances `i` by
at least one per iteration, so `n` iterations suffice. -/
def findSeeds (ident_by_idx : ℕ → Option ℚ) (seed_thr : ℚ)
    (seed_k n : ℕ) : List (ℕ × ℕ) :=
  findSeedsAux ident_by_idx seed_thr seed_k n n 0

/-- State of one x-drop extension loop after a step: whether the loop
continues, the running score, the best score and the best position. -/
structure ExtRes where
  cont : Bool
  score : ℚ
  best_score : ℚ
  best_pos : ℕ
deriving Repr

/-- One x-drop extension step at window `k` (the shared body of the two
while loops, ibd.py lines 169-187 and 193-211): scores the window,
updates the best score and position, and reports whether the loop goes
on (`cont = false` is the x-drop break).  A missing window with
`treat_missing_as_gap` false is skipped without scoring and without an
x-drop test. -/
def extStep (ident_by_idx : ℕ → Option ℚ) (treat_missing_as_gap : Bool)
    (ext_thr xdrop reward pen_bad pen_miss : ℚ) (k : ℕ)
    (score best_score : ℚ) (best_pos : ℕ) : ExtRes :=
  match ident_by_idx k with
  | none =>
      if treat_missing_as_gap then
        let score' := score - pen_miss
        let p := if best_score < score' then (score', k) else (best_score, best_pos)
        { cont := !decide (xdrop < p.1 - score'), score := score',
          best_score := p.1, best_pos := p.2 }
      else
        { cont := true, score := score, best_score := best_score,
          best_pos := best_pos }
  | some q =>
      let score' := if ext_thr ≤ q then score + reward else score - pen_bad
      let p := if best_score < score' then (score', k) else (best_score, best_pos)
      { cont := !decide (xdrop < p.1 - score'), score := score',
        best_score := p.1, best_pos := p.2 }

/-- Leftward x-drop extension loop (ibd.py lines 164-187), processing
windows `k, k-1, ..., 0` unless stopped; returns `best_left`. -/
def extendLeftGo (ident_by_idx : ℕ → Option ℚ) (treat_missing_as_gap : Bool)
    (ext_thr xdrop reward pen_bad pen_miss : ℚ) :
    ℕ → ℚ → ℚ → ℕ → ℕ
  | 0, score, best_score, best_pos =>
      (extStep ident_by_idx treat_missing_as_gap ext_thr xdrop reward
        pen_bad pen_miss 0 score best_score best_pos).best_pos
  | k + 1, score, best_score, best_pos =>
      let r := extStep ident_by_idx treat_missing_as_gap ext_thr xdrop reward
        pen_bad pen_miss (k + 1) score best_score best_pos
      if r.cont then
        extendLeftGo ident_by_idx treat_missing_as_gap ext_thr xdrop reward
          pen_bad pen_miss k r.score r.best_score r.best_pos
      else r.best_pos

/-- Left extension entry point: `best_left = s`, `score = best_score = 0`,
first window considered is `s - 1` (no iteration when `s = 0`). -/
def extend_left (ident_by_idx : ℕ → Option ℚ) (treat_missing_as_gap : Bool)
    (ext_thr xdrop reward pen_bad pen_miss : ℚ) (s : ℕ) : ℕ :=
  if s = 0 then s
  else extendLeftGo ident_by_idx treat_missing_as_gap ext_thr xdrop reward
    pen_bad pen_miss (s - 1) 0 0 s

/-- Rightward x-drop extension loop (ibd.py lines 189-211), processing
windows `k, k+1, ...` while `k < n`; fuel dominates `n - k`. -/
def extendRightGo (ident_by_idx : ℕ → Option ℚ) (treat_missing_as_gap : Bool)
    (ext_thr xdrop reward pen_bad pen_miss : ℚ) (n : ℕ) :
    ℕ → ℕ → ℚ → ℚ → ℕ → ℕ
  | 0, _, _, _, best_pos => best_pos
  | fuel + 1, k, score, best_score, best_pos =>
      if k < n then
        let r := extStep ident_by_idx treat_missing_as_gap ext_thr xdrop
          reward pen_bad pen_miss k score best_score best_pos
        if r.cont then
          extendRightGo ident_by_idx treat_missing_as_gap ext_thr xdrop
            reward pen_bad pen_miss n fuel (k + 1) r.score r.best_score
            r.best_pos
        else r.best_pos
      else best_pos

/-- Right extension entry point: `best_right = e`, scores reset to 0,
first window considered is `e + 1`. -/
def extend_right (ident_by_idx : ℕ → Option ℚ) (treat_missing_as_gap : Bool)
    (ext_thr xdrop reward pen_bad pen_miss : ℚ) (n e : ℕ) : ℕ :=
  extendRightGo ident_by_idx treat_missing_as_gap ext_thr xdrop reward
    pen_bad pen_miss n (n - (e + 1)) (e + 1) 0 0 e

/-- `summarize_segment` (ibd.py lines 224-241). -/
def summarize_segment (s e : ℕ) (wins : List Win)
    (ident_by_idx : ℕ → Option ℚ) : SeedSeg :=
  let start_bp := (winD wins s).start
  let end_bp := (winD wins e).stop
  let n_windows := e + 1 - s
  let covered_bp := covered_bp_calc wins s e
  let called_idents := (List.range' s (e + 1 - s)).filterMap ident_by_idx
  let mean_ident :=
    if called_idents.length ≠ 0 then called_idents.sum / (called_idents.length : ℚ) else 0
  let min_ident :=
    match called_idents with
    | [] => 0
    | h :: t => t.foldl min h
  let frac_called :=
    if 0 < n_windows then (called_idents.length : ℚ) / (n_windows : ℚ) else 0
  { chr := (winD wins s).chr, start := start_bp, stop := end_bp,
    n_windows := n_windows, covered_bp := covered_bp,
    mean_ident := mean_ident, min_ident := min_ident,
    frac_called := frac_called }

/-- Sort key order of `merge_segments` (ibd.py line 245): lexicographic on
`(chr, start, end)`. -/
def segLe (a b : SeedSeg) : Prop :=
  a.chr < b.chr ∨ (a.chr = b.chr ∧
    (a.start < b.start ∨ (a.start = b.start ∧ a.stop ≤ b.stop)))

instance : DecidableRel segLe := fun a b => by
  unfold segLe; infer_instance

instance : IsTotal SeedSeg segLe := by
  constructor
  intro a b
  unfold segLe
  rcases lt_trichotomy a.chr b.chr with h | h | h
  · exact Or.inl (Or.inl h)
  · rcases lt_trichotomy a.start b.start with h2 | h2 | h2
    · exact Or.inl (Or.inr ⟨h, Or.inl h2⟩)
    · rcases le_total a.stop b.stop with h3 | h3
      · exact Or.inl (Or.inr ⟨h, Or.inr ⟨h2, h3⟩⟩)
      · exact Or.inr (Or.inr ⟨h.symm, Or.inr ⟨h2.symm, h3⟩⟩)
    · exact Or.inr (Or.inr ⟨h.symm, Or.inl h2⟩)
  · exact Or.inr (Or.inl h)

instance : IsTrans SeedSeg segLe := by
  constructor
  intro a b c hab hbc
  unfold segLe at *
  rcases hab with h1 | ⟨e1, h1⟩
  · rcases hbc with h2 | ⟨e2, h2⟩
    · exact Or.inl (h1.trans h2)
    · exact Or.inl (e2 ▸ h1)
  · rcases hbc with h2 | ⟨e2, h2⟩
    · exact Or.inl (e1 ▸ h2)
    · refine Or.inr ⟨e1.trans e2, ?_⟩
      rcases h1 with h1 | ⟨f1, h1⟩
      · rcases h2 with h2 | ⟨f2, h2⟩
        · exact Or.inl (h1.trans h2)
        · exact Or.inl (f2 ▸ h1)
      · rcases h2 with h2 | ⟨f2, h2⟩
        · exact Or.inl (f1 ▸ h2)
        · exact Or.inr ⟨f1.trans f2, h1.trans h2⟩

/-- The coalescing loop of `merge_segments` (ibd.py lines 246-255): `done`
holds the frozen prefix of `out`, `last` is `out[-1]`, `rest` the
remaining sorted input.  Merging widens `last` in place and does not
touch its statistics fields. -/
def mergeGo : List SeedSeg → SeedSeg → List SeedSeg → List SeedSeg
  | done, last, [] => done ++ [last]
  | done, last, s :: rest =>
      if s.chr = last.chr ∧ s.start ≤ last.stop then
        mergeGo done
          { last with start := min last.start s.start,
                      stop := max last.stop s.stop } rest
      else mergeGo (done ++ [last]) s rest

/-- `merge_segments` (ibd.py lines 243-256). -/
def merge_segments (segs : List SeedSeg) : List SeedSeg :=
  match List.insertionSort segLe segs with
  | [] => []
  | h :: t => mergeGo [] h t

/-- The per-seed body of the extension loop (ibd.py lines 159-218),
threading the `used` marker array and the accumulated segment list. -/
def seedFold (wins : List Win) (ident_by_idx : ℕ → Option ℚ)
    (treat_missing_as_gap : Bool) (ext_thr xdrop reward pen_bad pen_miss : ℚ)
    (min_windows : ℕ) (min_len_bp : ℤ)
    (acc : (ℕ → Bool) × List SeedSeg) (se : ℕ × ℕ) :
    (ℕ → Bool) × List SeedSeg :=
  let s := se.1
  let e := se.2
  let used := acc.1
  if (List.range' s (e + 1 - s)).all used then acc
  else
    let best_left := extend_left ident_by_idx treat_missing_as_gap ext_thr
      xdrop reward pen_bad pen_miss s
    let best_right := extend_right ident_by_idx treat_missing_as_gap ext_thr
      xdrop reward pen_bad pen_miss wins.length e
    let seg := summarize_segment best_left best_right wins ident_by_idx
    if min_windows ≤ seg.n_windows ∧ min_len_bp ≤ seg.covered_bp then
      (fun k => if best_left ≤ k ∧ k ≤ best_right then true else used k,
       acc.2 ++ [seg])
    else acc

/-- `seed_extend_segments_for_pair` (ibd.py lines 123-222). -/
def seed_extend_segments_for_pair (track_list : List (ℕ × ℚ × ℤ))
    (wins : List Win) (seed_thr : ℚ) (seed_k : ℕ)
    (ext_thr xdrop reward pen_bad pen_miss : ℚ)
    (min_windows : ℕ) (min_len_bp : ℤ)
    (treat_missing_as_gap : Bool) : List SeedSeg :=
  let ident_by_idx := identByIdx track_list
  let n := wins.length
  let seeds := findSeeds ident_by_idx seed_thr seed_k n
  let res := seeds.foldl
    (seedFold wins ident_by_idx treat_missing_as_gap ext_thr xdrop reward
      pen_bad pen_miss min_windows min_len_bp) ((fun _ => false), [])
  merge_segments res.2

/-- Lexicographic order on triples, used for Python tuple sorting. -/
def lex3 {α β γ : Type} [LinearOrder α] [LinearOrder β] [LinearOrder γ]
    (x y : α × β × γ) : Prop :=
  x.1 < y.1 ∨ (x.1 = y.1 ∧
    (x.2.1 < y.2.1 ∨ (x.2.1 = y.2.1 ∧ x.2.2 ≤ y.2.2)))

instance {α β γ : Type} [LinearOrder α] [LinearOrder β] [LinearOrder γ] :
    DecidableRel (@lex3 α β γ _ _ _) := fun a b => by
  unfold lex3; infer_instance

instance {α β γ : Type} [LinearOrder α] [LinearOrder β] [LinearOrder γ] :
    IsTotal (α × β × γ) lex3 := by
  constructor
  intro a b
  unfold lex3
  rcases lt_trichotomy a.1 b.1 with h | h | h
  · exact Or.inl (Or.inl h)
  · rcases lt_trichotomy a.2.1 b.2.1 with h2 | h2 | h2
    · exact Or.inl (Or.inr ⟨h, Or.inl h2⟩)
    · rcases le_total a.2.2 b.2.2 with h3 | h3
      · exact Or.inl (Or.inr ⟨h, Or.inr ⟨h2, h3⟩⟩)
      · exact Or.inr (Or.inr ⟨h.symm, Or.inr ⟨h2.symm, h3⟩⟩)
    · exact Or.inr (Or.inr ⟨h.symm, Or.inl h2⟩)
  · exact Or.inr (Or.inl h)

instance {α β γ : Type} [LinearOrder α] [LinearOrder β] [LinearOrder γ] :
    IsTrans (α × β × γ) lex3 := by
  constructor
  intro a b c hab hbc
  unfold lex3 at *
  rcases hab with h1 | ⟨e1, h1⟩
  · rcases hbc with h2 | ⟨e2, h2⟩
    · exact Or.inl (h1.trans h2)
    · exact Or.inl (e2 ▸ h1)
  · rcases hbc with h2 | ⟨e2, h2⟩
    · exact Or.inl (e1 ▸ h2)
    · refine Or.inr ⟨e1.trans e2, ?_⟩
      rcases h1 with h1 | ⟨f1, h1⟩
      · rcases h2 with h2 | ⟨f2, h2⟩
        · exact Or.inl (h1.trans h2)
        · exact Or.inl (f2 ▸ h1)
      · rcases h2 with h2 | ⟨f2, h2⟩
        · exact Or.inl (f1 ▸ h2)
        · exact Or.inr ⟨f1.trans f2, h1.trans h2⟩

/-- A parsed input row (namedtuple `Row`, ibd.py line 6). -/
structure Row where
  region : String
  chr : String
  start : ℤ
  stop : ℤ
  length : ℤ
  a : String
  b : String
  ident : ℚ
deriving DecidableEq, Repr

/-- `pair_key` (ibd.py lines 34-35): canonical unordered pair of labels. -/
def pair_key (a b : String) : String × String :=
  if a ≤ b then (a, b) else (b, a)

/-- The required column set of `parse_table` (ibd.py line 9). -/
def required_cols (identity_col : String) : List String :=
  ["REGION", "CHR", "START", "END", "LENGTH", "group.a", "group.b",
   identity_col]

/-- `parse_table` (ibd.py lines 8-32).  The file is presented as its
header (`none` when the reader yields no field names, e.g. an empty
file) together with the per-line type-conversion results: Python's
`int()`/`float()` conversion with `try`/`except` skip (lines 15-31) is
abstracted as an `Option Row` per data line, `none` meaning the line was
malformed and is silently skipped. -/
def parse_table (fieldnames : Option (List String)) (identity_col : String)
    (records : List (Option Row)) : Except String (List Row) :=
  match fieldnames with
  | none => Except.error "missing columns"
  | some header =>
      if (required_cols identity_col).all (fun c => header.contains c) then
        Except.ok (records.filterMap id)
      else Except.error "missing columns"

/-- The sorted deduplicated window list of one chromosome
(`build_windows`, ibd.py lines 37-49): distinct `(start, end, length)`
triples of the chromosome's rows, sorted as Python tuples. -/
def build_windows_for (rows : List Row) (c : String) : List Win :=
  (List.insertionSort lex3
      (((rows.filter (fun r => r.chr = c)).map
        (fun r => (r.start, r.stop, r.length))).dedup)).map
    (fun t => ⟨c, t.1, t.2.1, t.2.2⟩)

/-- The `(start, end) -> index` lookup (`build_windows`, ibd.py line 48):
a Python dict build, so for duplicate `(start, end)` keys the last index
wins. -/
def index_of (wins : List Win) (s e : ℤ) : Option ℕ :=
  (List.range wins.length).foldl
    (fun acc i =>
      if (winD wins i).start = s ∧ (winD wins i).stop = e then some i
      else acc)
    none

/-- Insert-or-update into an insertion-ordered association list: the
embedding of Python's insertion-ordered `dict`/`defaultdict`. -/
def updateAssoc {κ ν : Type} [DecidableEq κ] (l : List (κ × ν)) (k : κ)
    (d : ν) (f : ν → ν) : List (κ × ν) :=
  match l with
  | [] => [(k, f d)]
  | (k', v) :: t =>
      if k' = k then (k', f v) :: t else (k', v) :: updateAssoc t k d f

/-- Track map: pair key -> chromosome -> list of (index, identity, length),
in first-insertion order (Python dicts preserve insertion order). -/
abbrev Tracks := List ((String × String) × List (String × List (ℕ × ℚ × ℤ)))

/-- `build_pair_tracks` (ibd.py lines 51-62).  Rows whose `(start, end)`
does not resolve in the chromosome's index are dropped; per chromosome
the collected triples are sorted by window index (a stable sort, like
Python's `list.sort`). -/
def build_pair_tracks (rows : List Row)
    (index_of_chr : String → ℤ → ℤ → Option ℕ) : Tracks :=
  let raw := rows.foldl
    (fun acc r =>
      match index_of_chr r.chr r.start r.stop with
      | none => acc
      | some i =>
          updateAssoc acc (pair_key r.a r.b) []
            (fun byChr =>
              updateAssoc byChr r.chr []
                (fun tl => tl ++ [(i, r.ident, r.length)])))
    []
  raw.map (fun p =>
    (p.1, p.2.map (fun q =>
      (q.1, List.insertionSort (fun x y : ℕ × ℚ × ℤ => x.1 < y.1) q.2))))

/-- Parse the optional pairs allow-list file (ibd.py lines 312-319):
blank and `#` lines are skipped, other lines must have at least two
tab-separated fields (otherwise Python's tuple unpacking raises, modelled
as `none`), and contribute their canonical pair key. -/
def parse_pairs (lines : List String) : Option (List (String × String)) :=
  lines.foldl
    (fun acc line =>
      match acc with
      | none => none
      | some fl =>
          if line.trim = "" ∨ line.startsWith "#" then some fl
          else
            match (line.dropRightWhile (fun c => c = '\n')).splitOn "\t" with
            | a :: b :: _ => some (fl ++ [pair_key a b])
            | _ => none)
    (some [])

/-- The pair-skip test of the main loop (ibd.py lines 326-327):
`if pair_filter and pair_key(a,b) not in pair_filter: continue`.
An empty filter set is falsy in Python, so it skips nothing. -/
def skipPair (pair_filter : Option (List (String × String)))
    (k : String × String) : Bool :=
  match pair_filter with
  | none => false
  | some l => !l.isEmpty && !l.contains k

/-- Caller selection (`--mode`, ibd.py lines 284-285). -/
inductive Mode
  | rle
  | seed
deriving DecidableEq, Repr

/-- The recognized configuration surface (ibd.py lines 284-303). -/
structure Config where
  mode : Mode
  min_windows : ℕ
  min_length_bp : ℤ
  missing_as_gap : Bool
  min_identity : ℚ
  max_gap : ℕ
  drop_tolerance : ℚ
  seed_threshold : ℚ
  seed_k : ℕ
  extend_threshold : ℚ
  xdrop : ℚ
  reward : ℚ
  penalty_bad : ℚ
  penalty_miss : ℚ

/-- One output row (ibd.py lines 322 and 354-358); numeric fields are kept
as numbers (decimal formatting is part of the excluded I/O layer). -/
structure OutRow where
  chr : String
  start : ℤ
  stop : ℤ
  hap1 : String
  hap2 : String
  n_windows : ℕ
  covered_bp : ℤ
  mean_identity : ℚ
  min_identity : ℚ
  fraction_called : ℚ
  mode : Mode
deriving DecidableEq, Repr

/-- The segment-emitting double loop of `main` (ibd.py lines 325-358),
given the already-built tracks and an already-parsed pair filter. -/
def emit_segments (cfg : Config) (rows : List Row)
    (tracks : Tracks)
    (pair_filter : Option (List (String × String))) : List OutRow :=
  tracks.foldl
    (fun acc p =>
      let a := p.1.1
      let b := p.1.2
      if skipPair pair_filter (pair_key a b) then acc
      else
        acc ++ p.2.foldl
          (fun acc2 cp =>
            let wins := build_windows_for rows cp.1
            let segs : List OutRow :=
              match cfg.mode with
              | Mode.rle =>
                  (rle_segments_for_pair cp.2 wins cfg.min_identity
                      cfg.max_gap cfg.min_windows cfg.min_length_bp
                      cfg.missing_as_gap cfg.drop_tolerance).map
                    (fun s =>
                      ⟨cp.1, s.start, s.stop, a, b, s.n_windows,
                       s.covered_bp, s.mean_ident, s.min_ident,
                       s.frac_called, Mode.rle⟩)
              | Mode.seed =>
                  (seed_extend_segments_for_pair cp.2 wins
                      cfg.seed_threshold cfg.seed_k cfg.extend_threshold
                      cfg.xdrop cfg.reward cfg.penalty_bad cfg.penalty_miss
                      cfg.min_windows cfg.min_length_bp
                      cfg.missing_as_gap).map
                    (fun s =>
                      ⟨cp.1, s.start, s.stop, a, b, s.n_windows,
                       s.covered_bp, s.mean_ident, s.min_ident,
                       s.frac_called, Mode.seed⟩)
            acc2 ++ segs)
          [])
    []

/-- `main` after table ingestion (ibd.py lines 306-358): exits fatally on
an empty row list (`none`), parses the optional pairs file (crashing,
i.e. `none`, on a malformed line), then emits segments per pair and
chromosome. -/
def main_run (cfg : Config) (rows : List Row)
    (pairs_lines : Option (List String)) : Option (List OutRow) :=
  if rows.isEmpty then none
  else
    match pairs_lines with
    | none =>
        some (emit_segments cfg rows
          (build_pair_tracks rows
            (fun c s e => index_of (build_windows_for rows c) s e)) none)
    | some lines =>
        match parse_pairs lines with
        | none => none
        | some fl =>
            some (emit_segments cfg rows
              (build_pair_tracks rows
                (fun c s e => index_of (build_windows_for rows c) s e))
              (some fl))

/-- Swapping the two group labels of a row (the transformation of the
pair-key symmetry property). -/
def swapRow (r : Row) : Row :=
  { r with a := r.b, b := r.a }

/-! ## Claim C4: the concrete RLE scenario -/

/-- C4: on the single pair track of 10 consecutive 5000 bp windows on chr1
with identities [0.9950, 0.9998, 0.9998, 0.9998, 0.9997, 0.9998, 0.9998,
0.9950, 0.9950, 0.9950] and min_identity = 0.9995, max_gap = 1,
min_windows = 3, min_length_bp = 5000, drop_tolerance = 0, the RLE caller
emits exactly one segment, with start bp 5000, end bp 35000 (window
indices 1 through 6), n_windows = 6 and covered_bp = 30000. -/
theorem C4_rle_concrete_scenario :
    (rle_segments_for_pair track10 wins10 q9995 1 3 5000 false 0).map
      (fun s => (s.start, s.stop, s.n_windows, s.covered_bp)) =
    [(5000, 35000, 6, 30000)] := by decide

/-! ## Claim C3: the schema gate of table ingestion -/

/-- Claim C3 as stated: ingestion fails fatally exactly when the required
column set is not a superset of the file's header. -/
def SchemaCheckClaim : Prop :=
  ∀ (fieldnames : Option (List String)) (identity_col : String)
    (records : List (Option Row)),
    (∃ msg, parse_table fieldnames identity_col records = Except.error msg) ↔
      ¬ (∀ c ∈ fieldnames.getD [], c ∈ required_cols identity_col)

/-- C3 counterexample: for a header consisting of all required columns
plus one extra column, the required set is not a superset of the header,
so the claim demands a fatal error, but `parse_table` accepts the file. -/
theorem C3_counterexample : ¬ SchemaCheckClaim := by
  intro h
  rcases (h (some (required_cols "estimated.identity" ++ ["extra"]))
      "estimated.identity" []).mpr (by decide) with ⟨msg, hmsg⟩
  rw [show parse_table (some (required_cols "estimated.identity" ++ ["extra"]))
      "estimated.identity" [] = Except.ok [] from rfl] at hmsg
  exact Except.noConfusion hmsg

/-- C3 amended: ingestion fails fatally (and yields no rows) exactly when
the file yields no header at all or the header is not a superset of the
required column set; otherwise parsing proceeds. -/
theorem C3_amended_schema_gate (fieldnames : Option (List String))
    (identity_col : String) (records : List (Option Row)) :
    (∃ msg, parse_table fieldnames identity_col records = Except.error msg) ↔
      (fieldnames = none ∨
        ¬ (∀ c ∈ required_cols identity_col, c ∈ fieldnames.getD [])) := by
  cases fieldnames with
  | none => simp [parse_table]
  | some header =>
      simp only [parse_table, Option.getD_some]
      by_cases h : ((required_cols identity_col).all fun c => header.contains c) = true
      · rw [if_pos h]
        have hmem : ∀ c ∈ required_cols identity_col, c ∈ header := by simpa using h
        constructor
        · rintro ⟨msg, hmsg⟩
          exact Except.noConfusion hmsg
        · rintro (hn | hn)
          · exact Option.noConfusion hn
          · exact absurd hmem hn
      · rw [if_neg h]
        have hmem : ¬ ∀ c ∈ required_cols identity_col, c ∈ header := by
          intro hall
          exact h (by simpa using hall)
        constructor
        · intro _
          exact Or.inr hmem
        · intro _
          exact ⟨"missing columns", rfl⟩

/-! ## Claim C8: pair-key symmetry -/

/-- The canonical pair key is symmetric in its two labels. -/
theorem pair_key_comm (a b : String) : pair_key b a = pair_key a b := by
  unfold pair_key
  by_cases h1 : a ≤ b
  · by_cases h2 : b ≤ a
    · have hab : a = b := le_antisymm h1 h2
      subst hab
      simp
    · rw [if_neg h2, if_pos h1]
  · have h2 : b ≤ a := le_of_not_le h1
    rw [if_pos h2, if_neg h1]

/-- Swapping the labels of every row does not change a chromosome's
window triples. -/
theorem trips_swap (rows : List Row) (c : String) :
    ((rows.map swapRow).filter (fun r => r.chr = c)).map
        (fun r => (r.start, r.stop, r.length)) =
      (rows.filter (fun r => r.chr = c)).map
        (fun r => (r.start, r.stop, r.length)) := by
  induction rows with
  | nil => rfl
  | cons r t ih =>
      by_cases h : r.chr = c
      · simp only [List.map_cons, List.filter_cons, swapRow] at *
        simp [h, ih]
      · simp only [List.map_cons, List.filter_cons, swapRow] at *
        simp [h, ih]

/-- Swapping the labels of every row does not change the window lists. -/
theorem build_windows_for_swap (rows : List Row) (c : String) :
    build_windows_for (rows.map swapRow) c = build_windows_for rows c := by
  unfold build_windows_for
  rw [trips_swap]

/-- Two left folds with pointwise-equal step functions agree. -/
theorem foldl_congr_fun {α β : Type} (f g : β → α → β) (l : List α) (b : β)
    (h : ∀ acc a, f acc a = g acc a) : l.foldl f b = l.foldl g b := by
  have hfg : f = g := funext fun acc => funext fun a => h acc a
  rw [hfg]

/-- Swapping the labels of every row does not change the pair tracks. -/
theorem build_pair_tracks_swap (rows : List Row)
    (idx : String → ℤ → ℤ → Option ℕ) :
    build_pair_tracks (rows.map swapRow) idx = build_pair_tracks rows idx := by
  simp only [build_pair_tracks]
  refine congrArg _ ?_
  rw [List.foldl_map]
  refine foldl_congr_fun _ _ _ _ ?_
  intro acc r
  show (match idx r.chr r.start r.stop with
        | none => acc
        | some i =>
            updateAssoc acc (pair_key r.b r.a) []
              (fun byChr =>
                updateAssoc byChr r.chr []
                  (fun tl => tl ++ [(i, r.ident, r.length)]))) = _
  cases idx r.chr r.start r.stop with
  | none => rfl
  | some i => rw [pair_key_comm]

/-- Swapping the labels of every row does not change the emitted rows for
fixed tracks (rows feed in only through the window lists). -/
theorem emit_segments_swap (cfg : Config) (rows : List Row) (tracks : Tracks)
    (pf : Option (List (String × String))) :
    emit_segments cfg (rows.map swapRow) tracks pf =
      emit_segments cfg rows tracks pf := by
  unfold emit_segments
  refine foldl_congr_fun _ _ _ _ ?_
  intro acc p
  by_cases h : skipPair pf (pair_key p.1.1 p.1.2) = true
  · rw [if_pos h, if_pos h]
  · rw [if_neg h, if_neg h]
    refine congrArg _ ?_
    refine foldl_congr_fun _ _ _ _ ?_
    intro acc2 cp
    simp only [build_windows_for_swap]

/-- C8: running the pipeline on the row set with the two group labels
swapped on every row produces exactly the same output rows, attributed to
the same canonical pair keys, as the original row set. -/
theorem C8_pair_key_symmetry (cfg : Config) (rows : List Row)
    (pairs_lines : Option (List String)) :
    main_run cfg (rows.map swapRow) pairs_lines = main_run cfg rows pairs_lines := by
  have hempty : (rows.map swapRow).isEmpty = rows.isEmpty := by
    cases rows <;> rfl
  cases pairs_lines with
  | none =>
      simp only [main_run, hempty, build_windows_for_swap,
        build_pair_tracks_swap, emit_segments_swap]
  | some lines =>
      cases hp : parse_pairs lines with
      | none => simp only [main_run, hempty, hp]
      | some fl =>
          simp only [main_run, hempty, hp, build_windows_for_swap,
            build_pair_tracks_swap, emit_segments_swap]

/-! ## Claim C9: an empty allow-list disables pair filtering -/

/-- The pairs-file fold ignores blank and comment lines. -/
theorem parse_pairs_go_blank (lines : List String) (fl : List (String × String))
    (h : ∀ l ∈ lines, l.trim = "" ∨ l.startsWith "#") :
    lines.foldl
      (fun acc line =>
        match acc with
        | none => none
        | some fl =>
            if line.trim = "" ∨ line.startsWith "#" then some fl
            else
              match (line.dropRightWhile (fun c => c = '\n')).splitOn "\t" with
              | a :: b :: _ => some (fl ++ [pair_key a b])
              | _ => none)
      (some fl) = some fl := by
  induction lines generalizing fl with
  | nil => rfl
  | cons l t ih =>
      have hl := h l (List.mem_cons_self l t)
      simp only [List.foldl_cons]
      rw [if_pos hl]
      exact ih fl (fun x hx => h x (List.mem_cons_of_mem l hx))

/-- A pairs file whose every line is blank or a comment parses to the
empty filter set. -/
theorem parse_pairs_blank (lines : List String)
    (h : ∀ l ∈ lines, l.trim = "" ∨ l.startsWith "#") :
    parse_pairs lines = some [] := by
  unfold parse_pairs
  exact parse_pairs_go_blank lines [] h

/-- An empty pair filter skips nothing, exactly like no filter. -/
theorem emit_segments_empty_filter (cfg : Config) (rows : List Row)
    (tracks : Tracks) :
    emit_segments cfg rows tracks (some []) =
      emit_segments cfg rows tracks none := by
  unfold emit_segments
  refine foldl_congr_fun _ _ _ _ ?_
  intro acc p
  rfl

/-- C9: supplying a pairs allow-list file in which every line is blank or
starts with '#' yields an empty filter set, which Python treats as falsy,
so no pair is skipped: the run is identical to a run without any
allow-list. -/
theorem C9_empty_allowlist (cfg : Config) (rows : List Row)
    (lines : List String)
    (h : ∀ l ∈ lines, l.trim = "" ∨ l.startsWith "#") :
    main_run cfg rows (some lines) = main_run cfg rows none := by
  have hp := parse_pairs_blank lines h
  simp only [main_run, hp, emit_segments_empty_filter]

/-- A sample configuration (the CLI defaults of ibd.py lines 284-303). -/
def cfgEx : Config :=
  { mode := Mode.seed, min_windows := 3, min_length_bp := 5000,
    missing_as_gap := false, min_identity := q9995, max_gap := 1,
    drop_tolerance := 0, seed_threshold := q9998, seed_k := 2,
    extend_threshold := q9995, xdrop := 2, reward := 1, penalty_bad := 1,
    penalty_miss := 1 }

/-- A sample input row. -/
def rowEx : Row :=
  { region := "r", chr := "chr1", start := 0, stop := 5000, length := 5000,
    a := "A", b := "B", ident := q9998 }

/-- Witness for C9 at a concrete run: the empty allow-list file. -/
theorem C9_empty_allowlist_witness :
    (∀ l ∈ ([] : List String), l.trim = "" ∨ l.startsWith "#") ∧
      main_run cfgEx [rowEx] (some []) = main_run cfgEx [rowEx] none :=
  ⟨by simp, C9_empty_allowlist cfgEx [rowEx] [] (by simp)⟩

/-! ## Claim C7: merge correctness -/

/-- On a single chromosome the sort order forces nondecreasing starts. -/
theorem segLe_start_le {x y : SeedSeg} (hchr : x.chr = y.chr)
    (h : segLe x y) : x.start ≤ y.start := by
  rcases h with h | ⟨_, h | ⟨h, _⟩⟩
  · rw [hchr] at h
    exact absurd h (lt_irrefl _)
  · exact le_of_lt h
  · exact le_of_eq h

/-- Invariant of the coalescing loop: if the remaining candidates are on
chromosome `c` with nondecreasing starts relative to `last`, and the
frozen output so far is strictly ordered (`stop < start` pairwise), then
the final output is strictly ordered. -/
theorem mergeGo_pairwise (c : String) (rest : List SeedSeg) :
    ∀ (done : List SeedSeg) (last : SeedSeg),
      (∀ s ∈ rest, s.chr = c) → last.chr = c →
      List.Pairwise (fun x y : SeedSeg => x.start ≤ y.start) (last :: rest) →
      List.Pairwise (fun x y : SeedSeg => x.stop < y.start) (done ++ [last]) →
      List.Pairwise (fun x y : SeedSeg => x.stop < y.start)
        (mergeGo done last rest) := by
  induction rest with
  | nil =>
      intro done last _ _ _ hprev
      simpa [mergeGo] using hprev
  | cons s rest ih =>
      intro done last hchr hlast hpw hprev
      have hls : last.start ≤ s.start :=
        (List.pairwise_cons.mp hpw).1 s (List.mem_cons_self s rest)
      have hpwt : List.Pairwise (fun x y : SeedSeg => x.start ≤ y.start)
          (s :: rest) := (List.pairwise_cons.mp hpw).2
      simp only [mergeGo]
      by_cases hcond : s.chr = last.chr ∧ s.start ≤ last.stop
      · rw [if_pos hcond]
        apply ih done _
        · exact fun t ht => hchr t (List.mem_cons_of_mem s ht)
        · exact hlast
        · refine List.pairwise_cons.mpr ⟨?_, ?_⟩
          · intro t ht
            show min last.start s.start ≤ t.start
            rw [min_eq_left hls]
            exact (List.pairwise_cons.mp hpw).1 t (List.mem_cons_of_mem s ht)
          · exact (List.pairwise_cons.mp hpwt).2
        · rcases List.pairwise_append.mp hprev with ⟨hd, _, hdl⟩
          refine List.pairwise_append.mpr ⟨hd, List.pairwise_singleton _ _, ?_⟩
          intro a ha b hb
          rw [List.mem_singleton] at hb
          subst hb
          show a.stop < min last.start s.start
          rw [min_eq_left hls]
          exact hdl a ha last (List.mem_singleton_self last)
      · rw [if_neg hcond]
        have hsc : s.chr = c := hchr s (List.mem_cons_self s rest)
        have hstop : last.stop < s.start := by
          by_contra hcon
          exact hcond ⟨hsc.trans hlast.symm, le_of_not_lt hcon⟩
        apply ih (done ++ [last]) s
        · exact fun t ht => hchr t (List.mem_cons_of_mem s ht)
        · exact hsc
        · exact hpwt
        · rcases List.pairwise_append.mp hprev with ⟨hd, _, hdl⟩
          refine List.pairwise_append.mpr
            ⟨hprev, List.pairwise_singleton _ _, ?_⟩
          intro a ha b hb
          rw [List.mem_singleton] at hb
          subst hb
          rcases List.mem_append.mp ha with ha' | ha'
          · exact lt_of_lt_of_le
              (hdl a ha' last (List.mem_singleton_self last)) hls
          · rw [List.mem_singleton] at ha'
            subst ha'
            exact hstop

/-- After merging, the output of `merge_segments` on one chromosome is
strictly ordered: each segment's start exceeds every earlier segment's
end. -/
theorem merge_segments_pairwise (segs : List SeedSeg) (c : String)
    (hc : ∀ s ∈ segs, s.chr = c) :
    List.Pairwise (fun x y : SeedSeg => x.stop < y.start)
      (merge_segments segs) := by
  unfold merge_segments
  cases hs : List.insertionSort segLe segs with
  | nil => simp
  | cons h t =>
      have hsorted : List.Sorted segLe (h :: t) := by
        rw [← hs]
        exact List.sorted_insertionSort segLe segs
      have hmem : ∀ x ∈ h :: t, x.chr = c := by
        intro x hx
        apply hc
        rw [← hs] at hx
        exact (List.perm_insertionSort segLe segs).mem_iff.mp hx
      have hpw : List.Pairwise (fun x y : SeedSeg => x.start ≤ y.start)
          (h :: t) := by
        rw [List.pairwise_iff_get]
        intro i j hij
        refine segLe_start_le ?_ (hsorted.rel_get_of_lt hij)
        rw [hmem _ (List.get_mem _ _ _), hmem _ (List.get_mem _ _ _)]
      exact mergeGo_pairwise c t [] h
        (fun s hs' => hmem s (List.mem_cons_of_mem h hs'))
        (hmem h (List.mem_cons_self h t)) hpw (by simp)

/-- C7: for every list of candidate segments on one chromosome, no two
segments returned by the merge step overlap: listed in output order,
each segment's start is strictly greater than every earlier segment's
end, hence no base-pair position lies in two output segments. -/
theorem C7_merge_no_overlap (segs : List SeedSeg) (c : String)
    (hc : ∀ s ∈ segs, s.chr = c) (d : SeedSeg)
    (i j : ℕ) (hij : i < j) (hj : j < (merge_segments segs).length) :
    ((merge_segments segs).getD i d).stop <
        ((merge_segments segs).getD j d).start ∧
      ∀ x : ℤ,
        ¬ (((merge_segments segs).getD i d).start ≤ x ∧
           x ≤ ((merge_segments segs).getD i d).stop ∧
           ((merge_segments segs).getD j d).start ≤ x ∧
           x ≤ ((merge_segments segs).getD j d).stop) := by
  have hp := merge_segments_pairwise segs c hc
  rw [List.pairwise_iff_get] at hp
  have hlt := hp ⟨i, lt_trans hij hj⟩ ⟨j, hj⟩ hij
  rw [← List.getD_eq_get _ d (lt_trans hij hj), ← List.getD_eq_get _ d hj] at hlt
  refine ⟨hlt, ?_⟩
  rintro x ⟨_, h2, h3, _⟩
  exact absurd (lt_of_le_of_lt h2 (lt_of_lt_of_le hlt h3)) (lt_irrefl x)

/-- Two disjoint candidate segments on one chromosome. -/
def segs7 : List SeedSeg :=
  [⟨"c", 0, 10, 1, 10, 0, 0, 0⟩, ⟨"c", 20, 30, 1, 10, 0, 0, 0⟩]

/-- The merge step keeps the two disjoint sample candidates intact. -/
theorem segs7_merge_len : (merge_segments segs7).length = 2 := by
  simp [merge_segments, segs7, mergeGo, segLe, List.insertionSort,
    List.orderedInsert]

/-- Witness for C7 at a concrete candidate list. -/
theorem C7_merge_no_overlap_witness :
    1 < (merge_segments segs7).length ∧
      (((merge_segments segs7).getD 0 ⟨"", 0, 0, 0, 0, 0, 0, 0⟩).stop <
          ((merge_segments segs7).getD 1 ⟨"", 0, 0, 0, 0, 0, 0, 0⟩).start ∧
        ∀ x : ℤ,
          ¬ (((merge_segments segs7).getD 0 ⟨"", 0, 0, 0, 0, 0, 0, 0⟩).start ≤ x ∧
             x ≤ ((merge_segments segs7).getD 0 ⟨"", 0, 0, 0, 0, 0, 0, 0⟩).stop ∧
             ((merge_segments segs7).getD 1 ⟨"", 0, 0, 0, 0, 0, 0, 0⟩).start ≤ x ∧
             x ≤ ((merge_segments segs7).getD 1 ⟨"", 0, 0, 0, 0, 0, 0, 0⟩).stop)) :=
  ⟨by rw [segs7_merge_len]; decide,
   C7_merge_no_overlap segs7 "c" (by decide) ⟨"", 0, 0, 0, 0, 0, 0, 0⟩ 0 1
     (by decide) (by rw [segs7_merge_len]; decide)⟩


/-! ## The RLE scan invariant (used by claims C1, C6 and C10) -/

/-- Number of missing windows in the inclusive index range `[s, e]`. -/
def missingCount (f : ℕ → Option ℚ) (s e : ℕ) : ℕ :=
  ((List.range' s (e + 1 - s)).filter (fun k => (f k).isNone)).length

theorem missingCount_single (f : ℕ → Option ℚ) (s : ℕ) :
    missingCount f s s = if (f s).isNone then 1 else 0 := by
  unfold missingCount
  have h1 : s + 1 - s = 1 := by omega
  rw [h1]
  by_cases h : (f s).isNone <;> simp [List.range', List.filter, h]

theorem missingCount_append (f : ℕ → Option ℚ) (s e : ℕ) (h : s ≤ e + 1) :
    missingCount f s (e + 1) =
      missingCount f s e + (if (f (e + 1)).isNone then 1 else 0) := by
  unfold missingCount
  have h1 : e + 1 + 1 - s = (e + 1 - s) + 1 := by omega
  rw [h1, List.range'_concat]
  have h2 : s + 1 * (e + 1 - s) = e + 1 := by omega
  rw [h2, List.filter_append, List.length_append]
  by_cases hmiss : (f (e + 1)).isNone <;>
    simp [List.filter, hmiss]

/-- Structural properties every emitted RLE segment has: it is the
finalization of a run `[s, e]` that starts at a qualifying window,
contains no present non-qualifying window, contains at most `max_gap`
missing windows in total (none at all when `treat_missing_as_gap` is
false), and whose statistics accumulators are consistent. -/
def RleSegOK (wins : List Win) (min_id : ℚ) (max_gap min_windows : ℕ)
    (min_len_bp : ℤ) (treat_missing_as_gap : Bool) (drop_tolerance : ℚ)
    (f : ℕ → Option ℚ) (seg : RleSeg) : Prop :=
  ∃ s e called isum imin g,
    s ≤ e ∧ e < wins.length ∧
    qualifies min_id drop_tolerance (f s) = true ∧
    (∀ k, s ≤ k → k ≤ e → (f k).isSome = true →
      qualifies min_id drop_tolerance (f k) = true) ∧
    missingCount f s e ≤ max_gap ∧
    (treat_missing_as_gap = false → missingCount f s e = 0) ∧
    called + missingCount f s e = e + 1 - s ∧
    1 ≤ called ∧
    imin * (called : ℚ) ≤ isum ∧
    finalize_segment (s, e) wins called isum imin min_windows min_len_bp g
      = some seg

/-- Invariant of the RLE scan after processing windows `0, ..., i-1`. -/
def RleScanInv (wins : List Win) (min_id : ℚ) (max_gap min_windows : ℕ)
    (min_len_bp : ℤ) (treat_missing_as_gap : Bool) (drop_tolerance : ℚ)
    (f : ℕ → Option ℚ) (i : ℕ) (st : RleState) : Prop :=
  (∀ seg ∈ st.segments, RleSegOK wins min_id max_gap min_windows min_len_bp
      treat_missing_as_gap drop_tolerance f seg) ∧
  ∀ s e, st.current = some (s, e) →
    s ≤ e ∧ e + 1 = i ∧
    qualifies min_id drop_tolerance (f s) = true ∧
    (∀ k, s ≤ k → k ≤ e → (f k).isSome = true →
      qualifies min_id drop_tolerance (f k) = true) ∧
    st.gaps = missingCount f s e ∧
    st.gaps ≤ max_gap ∧
    (treat_missing_as_gap = false → st.gaps = 0) ∧
    st.called + st.gaps = e + 1 - s ∧
    1 ≤ st.called ∧
    st.min_ident * (st.called : ℚ) ≤ st.ident_sum


/-- One step of the RLE scan preserves the invariant. -/
theorem rleScanInv_step (wins : List Win) (min_id : ℚ) (max_gap mw : ℕ)
    (mlbp : ℤ) (tmg : Bool) (dt : ℚ) (f : ℕ → Option ℚ) (i : ℕ)
    (st : RleState) (hn : i < wins.length)
    (hinv : RleScanInv wins min_id max_gap mw mlbp tmg dt f i st) :
    RleScanInv wins min_id max_gap mw mlbp tmg dt f (i + 1)
      (rleStep wins min_id max_gap mw mlbp tmg dt f st i) := by
  obtain ⟨hsegs, hcur⟩ := hinv
  cases hc : st.current with
  | none =>
      by_cases hm : (f i).isNone = true
      · -- missing window, no active run: state unchanged
        have hstep : rleStep wins min_id max_gap mw mlbp tmg dt f st i = st := by
          simp [rleStep, hc, hm]
        rw [hstep]
        refine ⟨hsegs, ?_⟩
        intro s e hse
        rw [hc] at hse
        exact Option.noConfusion hse
      · rw [Bool.not_eq_true] at hm
        by_cases hq : qualifies min_id dt (f i) = true
        · -- start a run at window i
          have hstep : rleStep wins min_id max_gap mw mlbp tmg dt f st i =
              { st with current := some (i, i), gaps := 0, called := 1,
                        ident_sum := (f i).getD 0,
                        min_ident := (f i).getD 0 } := by
            simp [rleStep, hc, hm, hq]
          rw [hstep]
          refine ⟨hsegs, ?_⟩
          intro s e hse
          have hse' : some (i, i) = some (s, e) := hse
          injection hse' with hse''
          injection hse'' with h1 h2
          subst h1
          subst h2
          refine ⟨le_refl _, rfl, hq, ?_, ?_, by simp, fun _ => rfl, ?_, le_refl _, ?_⟩
          · intro k hk1 hk2 _
            have hk : k = i := le_antisymm hk2 hk1
            rw [hk]
            exact hq
          · show (0 : ℕ) = missingCount f i i
            rw [missingCount_single, hm]
            simp
          · show 1 + 0 = i + 1 - i
            omega
          · show (f i).getD 0 * ((1 : ℕ) : ℚ) ≤ (f i).getD 0
            simp
        · -- non-qualifying present window, no active run: state unchanged
          rw [Bool.not_eq_true] at hq
          have hstep : rleStep wins min_id max_gap mw mlbp tmg dt f st i = st := by
            simp [rleStep, hc, hm, hq]
          rw [hstep]
          refine ⟨hsegs, ?_⟩
          intro s e hse
          rw [hc] at hse
          exact Option.noConfusion hse
  | some se =>
      obtain ⟨s0, e0⟩ := se
      obtain ⟨hse0, hei, hq0, hallq, hgaps, hgle, htmg0, hcg, hc1, hmin⟩ :=
        hcur s0 e0 hc
      have he0n : e0 < wins.length := by omega
      by_cases hm : (f i).isNone = true
      · by_cases htm : tmg = true
        · by_cases hov : max_gap < st.gaps + 1
          · -- gap budget exceeded: close the run at window i-1 = e0
            have hstep : rleStep wins min_id max_gap mw mlbp tmg dt f st i =
                { segments := st.segments ++
                    (finalize_segment (s0, i - 1) wins st.called st.ident_sum
                      st.min_ident mw mlbp max_gap).toList,
                  current := none, gaps := 0, called := 0, ident_sum := 0,
                  min_ident := 1 } := by
              simp [rleStep, hc, hm, htm, hov]
            rw [hstep]
            constructor
            · intro seg hseg
              rcases List.mem_append.mp hseg with hseg | hseg
              · exact hsegs seg hseg
              · rw [Option.mem_toList, Option.mem_def] at hseg
                have hi1 : i - 1 = e0 := by omega
                rw [hi1] at hseg
                exact ⟨s0, e0, st.called, st.ident_sum, st.min_ident, max_gap,
                  hse0, he0n, hq0, hallq, hgaps ▸ hgle,
                  fun hf => by rw [hf] at htm; exact Bool.noConfusion htm,
                  hgaps ▸ hcg, hc1, hmin, hseg⟩
            · intro s e hse
              exact Option.noConfusion hse
          · -- gap tolerated: extend the run through window i
            have hstep : rleStep wins min_id max_gap mw mlbp tmg dt f st i =
                { st with current := some (s0, i), gaps := st.gaps + 1 } := by
              simp [rleStep, hc, hm, htm, hov]
            rw [hstep]
            refine ⟨hsegs, ?_⟩
            intro s e hse
            have hse' : some (s0, i) = some (s, e) := hse
            injection hse' with hse''
            injection hse'' with h1 h2
            subst h1
            subst h2
            have hie : i = e0 + 1 := by omega
            have hmc : missingCount f s0 (e0 + 1) = missingCount f s0 e0 + 1 := by
              rw [missingCount_append f s0 e0 (by omega), if_pos (hie ▸ hm)]
            refine ⟨by omega, rfl, hq0, ?_, ?_, ?_, ?_, ?_, ?_, ?_⟩
            · intro k hk1 hk2 hks
              by_cases hke : k ≤ e0
              · exact hallq k hk1 hke hks
              · have hki : k = i := by omega
                rw [hki] at hks
                rw [Option.isNone_iff_eq_none] at hm
                rw [hm] at hks
                exact Bool.noConfusion hks
            · show st.gaps + 1 = missingCount f s0 i
              rw [hie, hmc, hgaps]
            · show st.gaps + 1 ≤ max_gap
              omega
            · intro hf
              rw [hf] at htm
              exact Bool.noConfusion htm
            · show st.called + (st.gaps + 1) = i + 1 - s0
              omega
            · exact hc1
            · exact hmin
        · -- missing window breaks the run: close at e0
          rw [Bool.not_eq_true] at htm
          have hstep : rleStep wins min_id max_gap mw mlbp tmg dt f st i =
              { segments := st.segments ++
                  (finalize_segment (s0, e0) wins st.called st.ident_sum
                    st.min_ident mw mlbp st.gaps).toList,
                current := none, gaps := 0, called := 0, ident_sum := 0,
                min_ident := 1 } := by
            simp [rleStep, hc, hm, htm]
          rw [hstep]
          constructor
          · intro seg hseg
            rcases List.mem_append.mp hseg with hseg | hseg
            · exact hsegs seg hseg
            · rw [Option.mem_toList, Option.mem_def] at hseg
              exact ⟨s0, e0, st.called, st.ident_sum, st.min_ident, st.gaps,
                hse0, he0n, hq0, hallq, hgaps ▸ hgle,
                fun _ => by rw [← hgaps]; exact htmg0 htm,
                hgaps ▸ hcg, hc1, hmin, hseg⟩
          · intro s e hse
            exact Option.noConfusion hse
      · rw [Bool.not_eq_true] at hm
        by_cases hq : qualifies min_id dt (f i) = true
        · -- qualifying present window extends the run
          have hov : ¬ (max_gap < st.gaps) := by omega
          have hstep : rleStep wins min_id max_gap mw mlbp tmg dt f st i =
              { st with current := some (s0, i), called := st.called + 1,
                        ident_sum := st.ident_sum + (f i).getD 0,
                        min_ident := min st.min_ident ((f i).getD 0) } := by
            simp [rleStep, hc, hm, hq, hov]
          rw [hstep]
          refine ⟨hsegs, ?_⟩
          intro s e hse
          have hse' : some (s0, i) = some (s, e) := hse
          injection hse' with hse''
          injection hse'' with h1 h2
          subst h1
          subst h2
          have hie : i = e0 + 1 := by omega
          have hmc : missingCount f s0 (e0 + 1) = missingCount f s0 e0 := by
            rw [missingCount_append f s0 e0 (by omega),
              if_neg (by rw [← hie]; simp [hm])]
            simp
          refine ⟨by omega, rfl, hq0, ?_, ?_, ?_, htmg0, ?_, ?_, ?_⟩
          · intro k hk1 hk2 hks
            by_cases hke : k ≤ e0
            · exact hallq k hk1 hke hks
            · have hki : k = i := by omega
              rw [hki]
              exact hq
          · show st.gaps = missingCount f s0 i
            rw [hie, hmc, hgaps]
          · show st.gaps ≤ max_gap
            exact hgle
          · show st.called + 1 + st.gaps = i + 1 - s0
            omega
          · show 1 ≤ st.called + 1
            omega
          · show min st.min_ident ((f i).getD 0) * ((st.called + 1 : ℕ) : ℚ) ≤
                st.ident_sum + (f i).getD 0
            push_cast
            have h1 : min st.min_ident ((f i).getD 0) * (st.called : ℚ) ≤
                st.min_ident * (st.called : ℚ) :=
              mul_le_mul_of_nonneg_right (min_le_left _ _) (by positivity)
            have h2 : min st.min_ident ((f i).getD 0) ≤ (f i).getD 0 :=
              min_le_right _ _
            calc min st.min_ident ((f i).getD 0) * ((st.called : ℚ) + 1)
                = min st.min_ident ((f i).getD 0) * (st.called : ℚ) +
                    min st.min_ident ((f i).getD 0) := by ring
              _ ≤ st.ident_sum + (f i).getD 0 :=
                  add_le_add (le_trans h1 hmin) h2
        · -- present non-qualifying window: close at e0 immediately
          rw [Bool.not_eq_true] at hq
          have hstep : rleStep wins min_id max_gap mw mlbp tmg dt f st i =
              { segments := st.segments ++
                  (finalize_segment (s0, e0) wins st.called st.ident_sum
                    st.min_ident mw mlbp st.gaps).toList,
                current := none, gaps := 0, called := 0, ident_sum := 0,
                min_ident := 1 } := by
            simp [rleStep, hc, hm, hq]
          rw [hstep]
          constructor
          · intro seg hseg
            rcases List.mem_append.mp hseg with hseg | hseg
            · exact hsegs seg hseg
            · rw [Option.mem_toList, Option.mem_def] at hseg
              exact ⟨s0, e0, st.called, st.ident_sum, st.min_ident, st.gaps,
                hse0, he0n, hq0, hallq, hgaps ▸ hgle,
                fun hf => by rw [← hgaps]; exact htmg0 hf,
                hgaps ▸ hcg, hc1, hmin, hseg⟩
          · intro s e hse
            exact Option.noConfusion hse

/-- Unfolding of the scan by one window. -/
theorem rleScan_succ (wins : List Win) (min_id : ℚ) (max_gap mw : ℕ)
    (mlbp : ℤ) (tmg : Bool) (dt : ℚ) (f : ℕ → Option ℚ) (n : ℕ) :
    rleScan wins min_id max_gap mw mlbp tmg dt f (n + 1) =
      rleStep wins min_id max_gap mw mlbp tmg dt f
        (rleScan wins min_id max_gap mw mlbp tmg dt f n) n := by
  unfold rleScan
  rw [List.range_succ, List.foldl_append, List.foldl_cons, List.foldl_nil]

/-- The scan invariant holds after any prefix of the scan. -/
theorem rleScanInv_holds (wins : List Win) (min_id : ℚ) (max_gap mw : ℕ)
    (mlbp : ℤ) (tmg : Bool) (dt : ℚ) (f : ℕ → Option ℚ) :
    ∀ n, n ≤ wins.length →
      RleScanInv wins min_id max_gap mw mlbp tmg dt f n
        (rleScan wins min_id max_gap mw mlbp tmg dt f n) := by
  intro n
  induction n with
  | zero =>
      intro _
      constructor
      · intro seg hseg
        simp [rleScan, rleInit] at hseg
      · intro s e hse
        simp [rleScan, rleInit] at hse
  | succ n ih =>
      intro hn
      rw [rleScan_succ]
      exact rleScanInv_step wins min_id max_gap mw mlbp tmg dt f n _
        (by omega) (ih (by omega))

/-- Every segment emitted by the RLE caller satisfies `RleSegOK`. -/
theorem rle_segments_ok (track_list : List (ℕ × ℚ × ℤ)) (wins : List Win)
    (min_id : ℚ) (max_gap mw : ℕ) (mlbp : ℤ) (tmg : Bool) (dt : ℚ) :
    ∀ seg ∈ rle_segments_for_pair track_list wins min_id max_gap mw mlbp tmg dt,
      RleSegOK wins min_id max_gap mw mlbp tmg dt (identByIdx track_list) seg := by
  intro seg hseg
  obtain ⟨hsegs, hcur⟩ := rleScanInv_holds wins min_id max_gap mw mlbp tmg dt
    (identByIdx track_list) wins.length (le_refl _)
  simp only [rle_segments_for_pair] at hseg
  cases hc : (rleScan wins min_id max_gap mw mlbp tmg dt
      (identByIdx track_list) wins.length).current with
  | none =>
      rw [hc] at hseg
      exact hsegs seg hseg
  | some cur =>
      obtain ⟨s0, e0⟩ := cur
      rw [hc] at hseg
      obtain ⟨hse0, hei, hq0, hallq, hgaps, hgle, htmg0, hcg, hc1, hmin⟩ :=
        hcur s0 e0 hc
      rcases List.mem_append.mp hseg with hseg | hseg
      · exact hsegs seg hseg
      · rw [Option.mem_toList, Option.mem_def] at hseg
        exact ⟨s0, e0, _, _, _, _, hse0, by omega, hq0, hallq,
          hgaps ▸ hgle, fun hf => by rw [← hgaps]; exact htmg0 hf,
          hgaps ▸ hcg, hc1, hmin, hseg⟩

/-- A finalized segment always passed both size filters, and its reported
`n_windows` and `covered_bp` are the run's. -/
theorem finalize_segment_filters {cur : ℕ × ℕ} {wins : List Win}
    {called : ℕ} {isum imin : ℚ} {mw : ℕ} {mlbp : ℤ} {g : ℕ} {seg : RleSeg}
    (h : finalize_segment cur wins called isum imin mw mlbp g = some seg) :
    mw ≤ seg.n_windows ∧ mlbp ≤ seg.covered_bp := by
  simp only [finalize_segment] at h
  split at h
  case isTrue hcond =>
      injection h with h'
      subst h'
      exact hcond
  case isFalse hcond => exact Option.noConfusion h

/-- Statistics facts of a finalized segment, from the accumulator
invariants of its run. -/
theorem finalize_segment_stats {s e : ℕ} {wins : List Win} {called : ℕ}
    {isum imin : ℚ} {mw : ℕ} {mlbp : ℤ} {g : ℕ} {seg : RleSeg}
    (h : finalize_segment (s, e) wins called isum imin mw mlbp g = some seg)
    (hc1 : 1 ≤ called) (hmin : imin * (called : ℚ) ≤ isum)
    (hcw : called ≤ e + 1 - s) :
    seg.min_ident ≤ seg.mean_ident ∧ 0 < seg.frac_called ∧
      seg.frac_called ≤ 1 := by
  have hcalledq : (0 : ℚ) < (called : ℚ) := by
    exact_mod_cast (by omega : 0 < called)
  have hnw : 0 < e + 1 - s := by omega
  have hnwq : (0 : ℚ) < ((e + 1 - s : ℕ) : ℚ) := by
    exact_mod_cast hnw
  simp only [finalize_segment] at h
  split at h
  case isTrue hcond =>
      injection h with h'
      subst h'
      refine ⟨?_, ?_, ?_⟩
      · show imin ≤ if 0 < called then isum / (called : ℚ) else 0
        rw [if_pos (by omega : 0 < called)]
        rw [le_div_iff hcalledq]
        exact hmin
      · exact div_pos hcalledq hnwq
      · exact (div_le_one hnwq).mpr (by exact_mod_cast hcw)
  case isFalse hcond => exact Option.noConfusion h

/-! ## Seed-and-extend soundness (used by claims C5, C6 and C10) -/

theorem seedRun_le (f : ℕ → Option ℚ) (thr : ℚ) (n : ℕ) :
    ∀ fuel j, seedRun f thr n fuel j ≤ n - j := by
  intro fuel
  induction fuel with
  | zero => intro j; simp [seedRun]
  | succ fuel ih =>
      intro j
      simp only [seedRun]
      by_cases hj : j < n
      · rw [if_pos hj]
        split
        · rename_i q heq
          by_cases hq : thr ≤ q
          · rw [if_pos hq]
            have := ih (j + 1)
            omega
          · rw [if_neg hq]
            simp
        · simp
      · rw [if_neg hj]
        simp

theorem seedRun_spec (f : ℕ → Option ℚ) (thr : ℚ) (n : ℕ) :
    ∀ fuel j m, m < seedRun f thr n fuel j →
      ∃ q, f (j + m) = some q ∧ thr ≤ q := by
  intro fuel
  induction fuel with
  | zero => intro j m hm; simp [seedRun] at hm
  | succ fuel ih =>
      intro j m hm
      simp only [seedRun] at hm
      by_cases hj : j < n
      · rw [if_pos hj] at hm
        split at hm
        · rename_i q heq
          by_cases hq : thr ≤ q
          · rw [if_pos hq] at hm
            cases m with
            | zero => exact ⟨q, by simpa using heq, hq⟩
            | succ m =>
                have := ih (j + 1) m (by omega)
                rw [show j + (m + 1) = (j + 1) + m by omega]
                exact this
          · rw [if_neg hq] at hm
            omega
        · omega
      · rw [if_neg hj] at hm
        omega

theorem seedRun_pos (f : ℕ → Option ℚ) (thr : ℚ) (n : ℕ) (fuel j : ℕ)
    (hfuel : 0 < fuel) (hj : j < n) (q : ℚ) (heq : f j = some q)
    (hq : thr ≤ q) : 0 < seedRun f thr n fuel j := by
  cases fuel with
  | zero => omega
  | succ fuel =>
      simp only [seedRun]
      rw [if_pos hj, heq]
      simp only [if_pos hq]
      omega

/-- Every discovered seed is an in-range inclusive run of at least
`seed_k` windows, all present with identity at or above the seed
threshold. -/
theorem findSeedsAux_spec (f : ℕ → Option ℚ) (thr : ℚ) (k n : ℕ) :
    ∀ fuel i, ∀ se ∈ findSeedsAux f thr k n fuel i,
      se.1 ≤ se.2 ∧ se.2 < n ∧ k ≤ se.2 + 1 - se.1 ∧
        ∀ m, se.1 ≤ m → m ≤ se.2 → ∃ q, f m = some q ∧ thr ≤ q := by
  intro fuel
  induction fuel with
  | zero => intro i se hse; simp [findSeedsAux] at hse
  | succ fuel ih =>
      intro i se hse
      simp only [findSeedsAux] at hse
      by_cases hi : i < n
      · rw [if_pos hi] at hse
        split at hse
        · rename_i q heq
          by_cases hq : thr ≤ q
          · rw [if_pos hq] at hse
            rcases List.mem_append.mp hse with hse | hse
            · by_cases hk : k ≤ seedRun f thr n (n - i) i
              · rw [if_pos hk, List.mem_singleton] at hse
                subst hse
                have hrpos : 0 < seedRun f thr n (n - i) i :=
                  seedRun_pos f thr n (n - i) i (by omega) hi q heq hq
                have hrle := seedRun_le f thr n (n - i) i
                refine ⟨by omega, by omega, by omega, ?_⟩
                intro m hm1 hm2
                have hs := seedRun_spec f thr n (n - i) i (m - i) (by omega)
                rw [show i + (m - i) = m by omega] at hs
                exact hs
              · rw [if_neg hk] at hse
                simp at hse
            · exact ih _ se hse
          · rw [if_neg hq] at hse
            exact ih _ se hse
        · exact ih _ se hse
      · rw [if_neg hi] at hse
        simp at hse

/-- The best position after one extension step is the old best position
or the scanned window. -/
theorem extStep_best_pos (f : ℕ → Option ℚ) (tmg : Bool)
    (et xd rw pb pm : ℚ) (k : ℕ) (score best : ℚ) (pos : ℕ) :
    (extStep f tmg et xd rw pb pm k score best pos).best_pos = pos ∨
      (extStep f tmg et xd rw pb pm k score best pos).best_pos = k := by
  simp only [extStep]
  split
  · split
    · by_cases hb : best < score - pm
      · simp [hb]
      · simp [hb]
    · simp
  · rename_i q heq
    by_cases hb : best < (if et ≤ q then score + rw else score - pb)
    · simp [hb]
    · simp [hb]

/-- The leftward extension never moves the boundary past `s`. -/
theorem extendLeftGo_le (f : ℕ → Option ℚ) (tmg : Bool)
    (et xd rw pb pm : ℚ) (s : ℕ) :
    ∀ k score best pos, k ≤ s → pos ≤ s →
      extendLeftGo f tmg et xd rw pb pm k score best pos ≤ s := by
  intro k
  induction k with
  | zero =>
      intro score best pos hk hp
      simp only [extendLeftGo]
      rcases extStep_best_pos f tmg et xd rw pb pm 0 score best pos with h | h
      · rw [h]; exact hp
      · rw [h]; exact hk
  | succ k ih =>
      intro score best pos hk hp
      simp only [extendLeftGo]
      set r := extStep f tmg et xd rw pb pm (k + 1) score best pos with hr
      have hbp : r.best_pos ≤ s := by
        rcases extStep_best_pos f tmg et xd rw pb pm (k + 1) score best pos
          with h | h
        · rw [← hr] at h; rw [h]; exact hp
        · rw [← hr] at h; rw [h]; exact hk
      by_cases hcont : r.cont = true
      · rw [if_pos hcont]
        exact ih r.score r.best_score r.best_pos (by omega) hbp
      · rw [if_neg hcont]
        exact hbp

theorem extend_left_le (f : ℕ → Option ℚ) (tmg : Bool)
    (et xd rw pb pm : ℚ) (s : ℕ) :
    extend_left f tmg et xd rw pb pm s ≤ s := by
  unfold extend_left
  by_cases hs : s = 0
  · rw [if_pos hs]
  · rw [if_neg hs]
    exact extendLeftGo_le f tmg et xd rw pb pm s (s - 1) 0 0 s (by omega)
      (le_refl s)

/-- The rightward extension keeps the boundary at or after `eLow` and
inside the window range. -/
theorem extendRightGo_bounds (f : ℕ → Option ℚ) (tmg : Bool)
    (et xd rw pb pm : ℚ) (n eLow : ℕ) :
    ∀ fuel k score best pos, eLow ≤ pos → eLow ≤ k → pos < n →
      eLow ≤ extendRightGo f tmg et xd rw pb pm n fuel k score best pos ∧
        extendRightGo f tmg et xd rw pb pm n fuel k score best pos < n := by
  intro fuel
  induction fuel with
  | zero =>
      intro k score best pos hp hk hpn
      simp only [extendRightGo]
      exact ⟨hp, hpn⟩
  | succ fuel ih =>
      intro k score best pos hp hk hpn
      simp only [extendRightGo]
      by_cases hkn : k < n
      · rw [if_pos hkn]
        set r := extStep f tmg et xd rw pb pm k score best pos with hr
        have hbp : eLow ≤ r.best_pos ∧ r.best_pos < n := by
          rcases extStep_best_pos f tmg et xd rw pb pm k score best pos
            with h | h
          · rw [← hr] at h; rw [h]; exact ⟨hp, hpn⟩
          · rw [← hr] at h; rw [h]; exact ⟨hk, hkn⟩
        by_cases hcont : r.cont = true
        · rw [if_pos hcont]
          exact ih (k + 1) r.score r.best_score r.best_pos hbp.1
            (by omega) hbp.2
        · rw [if_neg hcont]
          exact hbp
      · rw [if_neg hkn]
        exact ⟨hp, hpn⟩

theorem extend_right_bounds (f : ℕ → Option ℚ) (tmg : Bool)
    (et xd rw pb pm : ℚ) (n e : ℕ) (he : e < n) :
    e ≤ extend_right f tmg et xd rw pb pm n e ∧
      extend_right f tmg et xd rw pb pm n e < n := by
  unfold extend_right
  exact extendRightGo_bounds f tmg et xd rw pb pm n e (n - (e + 1)) (e + 1)
    0 0 e (le_refl e) (by omega) he

/-- Properties of a pre-merge seed-extend candidate segment: it is the
summary of an extended range `[bl, br]` enclosing a full seed `[s, e]`,
and it passed both size filters. -/
def SeedCandOK (wins : List Win) (f : ℕ → Option ℚ) (seed_thr : ℚ)
    (seed_k mw : ℕ) (mlbp : ℤ) (seg : SeedSeg) : Prop :=
  ∃ bl br s e, seg = summarize_segment bl br wins f ∧
    bl ≤ s ∧ s ≤ e ∧ e ≤ br ∧ br < wins.length ∧
    seed_k ≤ e + 1 - s ∧
    (∀ m, s ≤ m → m ≤ e → ∃ q, f m = some q ∧ seed_thr ≤ q) ∧
    mw ≤ seg.n_windows ∧ mlbp ≤ seg.covered_bp

/-- The seed-extension fold only accumulates candidates with
`SeedCandOK`. -/
theorem seedFold_ok (wins : List Win) (f : ℕ → Option ℚ) (tmg : Bool)
    (et xd rw pb pm : ℚ) (mw : ℕ) (mlbp : ℤ) (seed_thr : ℚ) (seed_k : ℕ) :
    ∀ (seeds : List (ℕ × ℕ)) (acc : (ℕ → Bool) × List SeedSeg),
      (∀ se ∈ seeds, se.1 ≤ se.2 ∧ se.2 < wins.length ∧
        seed_k ≤ se.2 + 1 - se.1 ∧
        ∀ m, se.1 ≤ m → m ≤ se.2 → ∃ q, f m = some q ∧ seed_thr ≤ q) →
      (∀ seg ∈ acc.2, SeedCandOK wins f seed_thr seed_k mw mlbp seg) →
      ∀ seg ∈ (seeds.foldl (seedFold wins f tmg et xd rw pb pm mw mlbp) acc).2,
        SeedCandOK wins f seed_thr seed_k mw mlbp seg := by
  intro seeds
  induction seeds with
  | nil => intro acc _ hacc seg hseg; exact hacc seg hseg
  | cons se seeds ih =>
      intro acc hseeds hacc seg hseg
      rw [List.foldl_cons] at hseg
      refine ih (seedFold wins f tmg et xd rw pb pm mw mlbp acc se)
        (fun t ht => hseeds t (List.mem_cons_of_mem se ht)) ?_ seg hseg
      intro sg hsg
      obtain ⟨h12, h2n, hk, hrun⟩ := hseeds se (List.mem_cons_self se seeds)
      simp only [seedFold] at hsg
      split at hsg
      · exact hacc sg hsg
      · split at hsg
        · rename_i hfilter
          rcases List.mem_append.mp hsg with hsg | hsg
          · exact hacc sg hsg
          · rw [List.mem_singleton] at hsg
            subst hsg
            refine ⟨extend_left f tmg et xd rw pb pm se.1,
              extend_right f tmg et xd rw pb pm wins.length se.2,
              se.1, se.2, rfl, extend_left_le f tmg et xd rw pb pm se.1,
              h12, (extend_right_bounds f tmg et xd rw pb pm wins.length
                se.2 h2n).1,
              (extend_right_bounds f tmg et xd rw pb pm wins.length
                se.2 h2n).2,
              hk, hrun, hfilter.1, hfilter.2⟩
        · exact hacc sg hsg

/-- The merge step can only widen a segment's range; all statistics
fields are inherited from one of the input candidates. -/
def segCovers (m cand : SeedSeg) : Prop :=
  m.chr = cand.chr ∧ m.start ≤ cand.start ∧ cand.stop ≤ m.stop ∧
  m.n_windows = cand.n_windows ∧ m.covered_bp = cand.covered_bp ∧
  m.mean_ident = cand.mean_ident ∧ m.min_ident = cand.min_ident ∧
  m.frac_called = cand.frac_called

theorem segCovers_refl (s : SeedSeg) : segCovers s s :=
  ⟨rfl, le_refl _, le_refl _, rfl, rfl, rfl, rfl, rfl⟩

theorem mergeGo_covers (orig : List SeedSeg) :
    ∀ (rest done : List SeedSeg) (last : SeedSeg),
      (∀ d ∈ done, ∃ c ∈ orig, segCovers d c) →
      (∃ c ∈ orig, segCovers last c) →
      (∀ t ∈ rest, t ∈ orig) →
      ∀ m ∈ mergeGo done last rest, ∃ c ∈ orig, segCovers m c := by
  intro rest
  induction rest with
  | nil =>
      intro done last hdone hlast _ m hm
      rcases List.mem_append.mp hm with hm | hm
      · exact hdone m hm
      · rw [List.mem_singleton] at hm
        subst hm
        exact hlast
  | cons t rest ih =>
      intro done last hdone hlast hrest m hm
      simp only [mergeGo] at hm
      split at hm
      · refine ih done _ hdone ?_
          (fun u hu => hrest u (List.mem_cons_of_mem t hu)) m hm
        obtain ⟨c, hc, hcov⟩ := hlast
        refine ⟨c, hc, hcov.1, ?_, ?_, hcov.2.2.2⟩
        · exact le_trans (min_le_left _ _) hcov.2.1
        · exact le_trans hcov.2.2.1 (le_max_left _ _)
      · refine ih (done ++ [last]) t ?_
          ⟨t, hrest t (List.mem_cons_self t rest), segCovers_refl t⟩
          (fun u hu => hrest u (List.mem_cons_of_mem t hu)) m hm
        intro d hd
        rcases List.mem_append.mp hd with hd | hd
        · exact hdone d hd
        · rw [List.mem_singleton] at hd
          subst hd
          exact hlast

theorem merge_segments_covers (segs : List SeedSeg) :
    ∀ m ∈ merge_segments segs, ∃ c ∈ segs, segCovers m c := by
  intro m hm
  unfold merge_segments at hm
  cases hs : List.insertionSort segLe segs with
  | nil => rw [hs] at hm; simp at hm
  | cons h t =>
      rw [hs] at hm
      have hmem : ∀ x ∈ h :: t, x ∈ segs := by
        intro x hx
        rw [← hs] at hx
        exact (List.perm_insertionSort segLe segs).mem_iff.mp hx
      exact mergeGo_covers segs t [] h (by simp)
        ⟨h, hmem h (List.mem_cons_self h t), segCovers_refl h⟩
        (fun u hu => hmem u (List.mem_cons_of_mem h hu)) m hm

/-- Every segment emitted by the seed-and-extend caller covers a
`SeedCandOK` candidate. -/
theorem seed_extend_segments_ok (track_list : List (ℕ × ℚ × ℤ))
    (wins : List Win) (seed_thr : ℚ) (seed_k : ℕ)
    (et xd rw pb pm : ℚ) (mw : ℕ) (mlbp : ℤ) (tmg : Bool) :
    ∀ seg ∈ seed_extend_segments_for_pair track_list wins seed_thr seed_k
        et xd rw pb pm mw mlbp tmg,
      ∃ cand, SeedCandOK wins (identByIdx track_list) seed_thr seed_k mw
          mlbp cand ∧ segCovers seg cand := by
  intro seg hseg
  simp only [seed_extend_segments_for_pair] at hseg
  obtain ⟨c, hc, hcov⟩ := merge_segments_covers _ seg hseg
  refine ⟨c, ?_, hcov⟩
  refine seedFold_ok wins (identByIdx track_list) tmg et xd rw pb pm mw mlbp
    seed_thr seed_k
    (findSeeds (identByIdx track_list) seed_thr seed_k wins.length)
    ((fun _ => false), []) ?_ (by simp) c hc
  intro se hse
  exact findSeedsAux_spec (identByIdx track_list) seed_thr seed_k
    wins.length wins.length 0 se hse

/-- The minimum of a nonempty fold is at most the initial value. -/
theorem foldl_min_le_init (t : List ℚ) : ∀ a : ℚ, t.foldl min a ≤ a := by
  induction t with
  | nil => intro a; exact le_refl a
  | cons x t ih =>
      intro a
      exact le_trans (ih (min a x)) (min_le_left a x)

/-- The list minimum times the length bounds the sum from below. -/
theorem foldl_min_mul_length_le_sum (t : List ℚ) :
    ∀ h : ℚ, (t.foldl min h) * (((h :: t).length : ℕ) : ℚ) ≤ (h :: t).sum := by
  induction t with
  | nil =>
      intro h
      simp
  | cons x t ih =>
      intro h
      have hfold : List.foldl min h (x :: t) = t.foldl min (min h x) := by
        simp [List.foldl_cons]
      have hih := ih (min h x)
      have hminh : t.foldl min (min h x) ≤ h :=
        le_trans (foldl_min_le_init t (min h x)) (min_le_left h x)
      have hmx : min h x ≤ x := min_le_right h x
      have hlen2 : (((h :: x :: t).length : ℕ) : ℚ) = ((t.length : ℕ) : ℚ) + 2 := by
        push_cast [List.length_cons]
        ring
      have hlen1 : (((min h x :: t).length : ℕ) : ℚ) = ((t.length : ℕ) : ℚ) + 1 := by
        push_cast [List.length_cons]
        ring
      rw [hfold, hlen2]
      rw [hlen1] at hih
      have hsum1 : ((min h x) :: t).sum = min h x + t.sum := by simp
      rw [hsum1] at hih
      have hsum2 : (h :: x :: t).sum = h + (x + t.sum) := by simp
      rw [hsum2]
      have hexp : t.foldl min (min h x) * (((t.length : ℕ) : ℚ) + 2) =
          t.foldl min (min h x) * (((t.length : ℕ) : ℚ) + 1) +
            t.foldl min (min h x) := by ring
      linarith [hih, hminh, hmx, hexp]

/-- Statistics facts of a summarized segment whose range contains at
least one called window. -/
theorem summarize_segment_stats (bl br : ℕ) (wins : List Win)
    (f : ℕ → Option ℚ) (m : ℕ) (hm1 : bl ≤ m) (hm2 : m ≤ br)
    (q : ℚ) (hq : f m = some q) :
    (summarize_segment bl br wins f).min_ident ≤
        (summarize_segment bl br wins f).mean_ident ∧
      0 < (summarize_segment bl br wins f).frac_called ∧
      (summarize_segment bl br wins f).frac_called ≤ 1 := by
  have hmem : q ∈ (List.range' bl (br + 1 - bl)).filterMap f := by
    rw [List.mem_filterMap]
    refine ⟨m, ?_, hq⟩
    rw [List.mem_range'_1]
    omega
  have hnw : 0 < br + 1 - bl := by omega
  have hlenle : ((List.range' bl (br + 1 - bl)).filterMap f).length ≤
      br + 1 - bl := by
    have := List.length_filterMap_le f (List.range' bl (br + 1 - bl))
    simpa [List.length_range'] using this
  cases hl : (List.range' bl (br + 1 - bl)).filterMap f with
  | nil => rw [hl] at hmem; simp at hmem
  | cons h t =>
      rw [hl] at hlenle
      have hlenq : (0 : ℚ) < (((h :: t).length : ℕ) : ℚ) := by
        exact_mod_cast Nat.succ_pos t.length
      have hnwq : (0 : ℚ) < ((br + 1 - bl : ℕ) : ℚ) := by
        exact_mod_cast hnw
      refine ⟨?_, ?_, ?_⟩
      · simp only [summarize_segment, hl]
        rw [if_pos (by simp : (h :: t).length ≠ 0)]
        rw [le_div_iff hlenq]
        exact foldl_min_mul_length_le_sum t h
      · simp only [summarize_segment, hl]
        rw [if_pos hnw]
        exact div_pos hlenq hnwq
      · simp only [summarize_segment, hl]
        rw [if_pos hnw]
        rw [div_le_one hnwq]
        exact_mod_cast hlenle

/-! ## Claim C6: filter enforcement -/

/-- C6: every segment emitted by either caller reports at least
`min_windows` windows and at least `min_length_bp` covered base pairs. -/
theorem C6_filter_enforcement (track_list : List (ℕ × ℚ × ℤ))
    (wins : List Win) (min_id seed_thr et xd rw pb pm dt : ℚ)
    (max_gap seed_k mw : ℕ) (mlbp : ℤ) (tmg : Bool) :
    (∀ seg ∈ rle_segments_for_pair track_list wins min_id max_gap mw mlbp
        tmg dt, mw ≤ seg.n_windows ∧ mlbp ≤ seg.covered_bp) ∧
    (∀ seg ∈ seed_extend_segments_for_pair track_list wins seed_thr seed_k
        et xd rw pb pm mw mlbp tmg,
      mw ≤ seg.n_windows ∧ mlbp ≤ seg.covered_bp) := by
  constructor
  · intro seg hseg
    obtain ⟨s, e, c, isum, imin, g, _, _, _, _, _, _, _, _, _, hfin⟩ :=
      rle_segments_ok track_list wins min_id max_gap mw mlbp tmg dt seg hseg
    exact finalize_segment_filters hfin
  · intro seg hseg
    obtain ⟨cand, hcand, hcov⟩ := seed_extend_segments_ok track_list wins
      seed_thr seed_k et xd rw pb pm mw mlbp tmg seg hseg
    obtain ⟨bl, br, s, e, _, _, _, _, _, _, _, hmw, hmlbp⟩ := hcand
    obtain ⟨_, _, _, hnw, hcovbp, _, _, _⟩ := hcov
    exact ⟨hnw ▸ hmw, hcovbp ▸ hmlbp⟩

/-! ## Claim C10: per-segment statistic invariants -/

/-- C10: every emitted segment (either mode, merged or not) has its
statistics computed from at least one called window: its minimum
identity is at most its mean identity and its called fraction lies in
(0, 1]. -/
theorem C10_segment_stats (track_list : List (ℕ × ℚ × ℤ))
    (wins : List Win) (min_id seed_thr et xd rw pb pm dt : ℚ)
    (max_gap seed_k mw : ℕ) (mlbp : ℤ) (tmg : Bool) :
    (∀ seg ∈ rle_segments_for_pair track_list wins min_id max_gap mw mlbp
        tmg dt, seg.min_ident ≤ seg.mean_ident ∧ 0 < seg.frac_called ∧
          seg.frac_called ≤ 1) ∧
    (∀ seg ∈ seed_extend_segments_for_pair track_list wins seed_thr seed_k
        et xd rw pb pm mw mlbp tmg,
      seg.min_ident ≤ seg.mean_ident ∧ 0 < seg.frac_called ∧
        seg.frac_called ≤ 1) := by
  constructor
  · intro seg hseg
    obtain ⟨s, e, c, isum, imin, g, hse, _, _, _, _, _, hcount, hc1, hmin,
      hfin⟩ := rle_segments_ok track_list wins min_id max_gap mw mlbp tmg dt
        seg hseg
    exact finalize_segment_stats hfin hc1 hmin (by omega)
  · intro seg hseg
    obtain ⟨cand, hcand, hcov⟩ := seed_extend_segments_ok track_list wins
      seed_thr seed_k et xd rw pb pm mw mlbp tmg seg hseg
    obtain ⟨bl, br, s, e, hsum, hbl, hsse, hebr, hbrn, hk, hrun, _, _⟩ := hcand
    obtain ⟨q, hq, _⟩ := hrun s (le_refl s) hsse
    have hstats := summarize_segment_stats bl br wins
      (identByIdx track_list) s hbl (le_trans hsse hebr) q hq
    obtain ⟨_, _, _, _, _, hmean, hminid, hfrac⟩ := hcov
    rw [hmean, hminid, hfrac, hsum]
    exact hstats

/-! ## Claim C1: RLE gap tolerance -/

/-- Claim C1 as stated: runs tolerate up to `max_gap` consecutive
non-qualifying or missing windows before closing, and close for
threshold reasons only when more than `max_gap` consecutive
non-qualifying-or-missing windows follow the last qualifying window.
Consequence used here: whenever between any two qualifying windows (with
none qualifying strictly between them) there are at most `max_gap`
non-qualifying windows, no run is ever closed before the end of the
scan, so at most one segment can be emitted. -/
def RleGapToleranceClaim : Prop :=
  ∀ (track_list : List (ℕ × ℚ × ℤ)) (wins : List Win) (min_id : ℚ)
    (max_gap mw : ℕ) (mlbp : ℤ) (tmg : Bool) (dt : ℚ),
    (∀ j, j < wins.length → ∀ i, i < j →
      qualifies min_id dt (identByIdx track_list i) = true →
      qualifies min_id dt (identByIdx track_list j) = true →
      (∀ k, k < j → i < k →
        qualifies min_id dt (identByIdx track_list k) = false) →
      j - i ≤ max_gap + 1) →
    (rle_segments_for_pair track_list wins min_id max_gap mw mlbp tmg dt).length ≤ 1

/-- The rational 1/2, in reduced constructor form. -/
def qhalf : ℚ := ⟨1, 2, by decide, by decide⟩

/-- Four unit windows on one chromosome. -/
def wins4 : List Win :=
  [⟨"c", 0, 1, 1⟩, ⟨"c", 1, 2, 1⟩, ⟨"c", 2, 3, 1⟩, ⟨"c", 3, 4, 1⟩]

/-- Identities 1, 0, 1, 1: a single present sub-threshold window at
index 1 between qualifying windows. -/
def track4 : List (ℕ × ℚ × ℤ) :=
  [(0, 1, 1), (1, 0, 1), (2, 1, 1), (3, 1, 1)]

/-- C1 counterexample: with `max_gap = 1` the single sub-threshold
present window at index 1 should be tolerated under the claim (one
consecutive non-qualifying window since the last qualifying window), so
at most one segment should be emitted; the code closes the run
immediately at any present non-qualifying window and emits two
segments. -/
theorem C1_counterexample : ¬ RleGapToleranceClaim := by
  intro h
  have hlen := h track4 wins4 qhalf 1 1 0 false 0 (by
    intro j hj i hij hqi hqj hbet
    have h4 : wins4.length = 4 := rfl
    rw [h4] at hj
    interval_cases j <;> interval_cases i <;>
      first
        | decide
        | exact absurd (hbet 2 (by decide) (by decide)) (by decide))
  have hcomputed :
      (rle_segments_for_pair track4 wins4 qhalf 1 1 0 false 0).length = 2 := by
    decide
  omega

/-- C1 amended: while a run is active, a present non-qualifying window
closes it immediately (independently of the gap budget), and missing
windows are tolerated only under `treat_missing_as_gap` and only up to a
cumulative total of `max_gap` missing windows over the whole run (the
counter is never reset by later qualifying windows).  Hence every
emitted segment is the finalization of a run that starts at a qualifying
window, contains no present non-qualifying window, and contains at most
`max_gap` missing windows in total (none when `treat_missing_as_gap` is
false). -/
theorem C1_amended_gap_semantics (track_list : List (ℕ × ℚ × ℤ))
    (wins : List Win) (min_id : ℚ) (max_gap mw : ℕ) (mlbp : ℤ)
    (tmg : Bool) (dt : ℚ) :
    ∀ seg ∈ rle_segments_for_pair track_list wins min_id max_gap mw mlbp
        tmg dt,
      ∃ s e called isum imin g,
        s ≤ e ∧ e < wins.length ∧
        finalize_segment (s, e) wins called isum imin mw mlbp g = some seg ∧
        qualifies min_id dt (identByIdx track_list s) = true ∧
        (∀ k, s ≤ k → k ≤ e → (identByIdx track_list k).isSome = true →
          qualifies min_id dt (identByIdx track_list k) = true) ∧
        missingCount (identByIdx track_list) s e ≤ max_gap ∧
        (tmg = false → missingCount (identByIdx track_list) s e = 0) := by
  intro seg hseg
  obtain ⟨s, e, c, isum, imin, g, h1, h2, h3, h4, h5, h6, _, _, _, hfin⟩ :=
    rle_segments_ok track_list wins min_id max_gap mw mlbp tmg dt seg hseg
  exact ⟨s, e, c, isum, imin, g, h1, h2, hfin, h3, h4, h5, h6⟩

/-- Two 5000 bp windows on chr1. -/
def wins2 : List Win :=
  [⟨"chr1", 0, 5000, 5000⟩, ⟨"chr1", 5000, 10000, 5000⟩]

/-- A fully-present two-window track with identity 1. -/
def track2 : List (ℕ × ℚ × ℤ) :=
  [(0, 1, 5000), (1, 1, 5000)]

/-- Witness for C1 (amended) at a concrete run. -/
theorem C1_amended_gap_semantics_witness :
    ∃ s e called isum imin g,
      s ≤ e ∧ e < wins2.length ∧
      finalize_segment (s, e) wins2 called isum imin 1 0 g =
        some ((rle_segments_for_pair track2 wins2 qhalf 1 1 0 false 0).head
          (by decide)) ∧
      qualifies qhalf 0 (identByIdx track2 s) = true ∧
      (∀ k, s ≤ k → k ≤ e → (identByIdx track2 k).isSome = true →
        qualifies qhalf 0 (identByIdx track2 k) = true) ∧
      missingCount (identByIdx track2) s e ≤ 1 ∧
      (false = false → missingCount (identByIdx track2) s e = 0) :=
  C1_amended_gap_semantics track2 wins2 qhalf 1 1 0 false 0
    ((rle_segments_for_pair track2 wins2 qhalf 1 1 0 false 0).head (by decide))
    (List.head_mem (by decide))

/-- Witness for C6 at a concrete run of both callers. -/
theorem C6_filter_enforcement_witness :
    (1 ≤ ((rle_segments_for_pair track2 wins2 qhalf 1 1 0 false 0).head
        (by decide)).n_windows ∧
      (0 : ℤ) ≤ ((rle_segments_for_pair track2 wins2 qhalf 1 1 0 false
        0).head (by decide)).covered_bp) ∧
    (1 ≤ ((seed_extend_segments_for_pair track2 wins2 qhalf 2 qhalf 2 1 1 1
        1 0 false).head (by decide)).n_windows ∧
      (0 : ℤ) ≤ ((seed_extend_segments_for_pair track2 wins2 qhalf 2 qhalf 2
        1 1 1 1 0 false).head (by decide)).covered_bp) :=
  ⟨(C6_filter_enforcement track2 wins2 qhalf qhalf qhalf 2 1 1 1 0 1 2 1 0
      false).1 _ (List.head_mem (by decide)),
   (C6_filter_enforcement track2 wins2 qhalf qhalf qhalf 2 1 1 1 0 1 2 1 0
      false).2 _ (List.head_mem (by decide))⟩

/-- Witness for C10 at a concrete run of both callers. -/
theorem C10_segment_stats_witness :
    (((rle_segments_for_pair track2 wins2 qhalf 1 1 0 false 0).head
        (by decide)).min_ident ≤
      ((rle_segments_for_pair track2 wins2 qhalf 1 1 0 false 0).head
        (by decide)).mean_ident ∧
      0 < ((rle_segments_for_pair track2 wins2 qhalf 1 1 0 false 0).head
        (by decide)).frac_called ∧
      ((rle_segments_for_pair track2 wins2 qhalf 1 1 0 false 0).head
        (by decide)).frac_called ≤ 1) ∧
    (((seed_extend_segments_for_pair track2 wins2 qhalf 2 qhalf 2 1 1 1 1 0
        false).head (by decide)).min_ident ≤
      ((seed_extend_segments_for_pair track2 wins2 qhalf 2 qhalf 2 1 1 1 1 0
        false).head (by decide)).mean_ident ∧
      0 < ((seed_extend_segments_for_pair track2 wins2 qhalf 2 qhalf 2 1 1 1
        1 0 false).head (by decide)).frac_called ∧
      ((seed_extend_segments_for_pair track2 wins2 qhalf 2 qhalf 2 1 1 1 1 0
        false).head (by decide)).frac_called ≤ 1) :=
  ⟨(C10_segment_stats track2 wins2 qhalf qhalf qhalf 2 1 1 1 0 1 2 1 0
      false).1 _ (List.head_mem (by decide)),
   (C10_segment_stats track2 wins2 qhalf qhalf qhalf 2 1 1 1 0 1 2 1 0
      false).2 _ (List.head_mem (by decide))⟩

/-! ## Claim C2: RLE threshold monotonicity -/

/-- Total covered base pairs of a list of emitted RLE segments. -/
def total_covered (segs : List RleSeg) : ℤ :=
  (segs.map (fun s => s.covered_bp)).sum

/-- Claim C2 as stated: for every fixed track, window list, `max_gap`,
`min_windows`, `min_length_bp`, `treat_missing_as_gap` and
`drop_tolerance`, raising `min_identity` never increases the total
covered base pairs of the emitted segments. -/
def RleThresholdMonotonicityClaim : Prop :=
  ∀ (track_list : List (ℕ × ℚ × ℤ)) (wins : List Win) (max_gap mw : ℕ)
    (mlbp : ℤ) (tmg : Bool) (dt : ℚ) (t1 t2 : ℚ),
    t1 ≤ t2 →
    total_covered (rle_segments_for_pair track_list wins t2 max_gap mw mlbp
        tmg dt) ≤
      total_covered (rle_segments_for_pair track_list wins t1 max_gap mw
        mlbp tmg dt)

/-- The rational 3/4, in reduced constructor form. -/
def q34 : ℚ := ⟨3, 4, by decide, by decide⟩

/-- Five windows on one chromosome with lengths 1, 1, 1, 1000, 1000. -/
def wins5 : List Win :=
  [⟨"c", 0, 1, 1⟩, ⟨"c", 1, 2, 1⟩, ⟨"c", 2, 3, 1⟩, ⟨"c", 3, 4, 1000⟩,
   ⟨"c", 4, 5, 1000⟩]

/-- A track present at indices 0 (identity 1/2), 2 and 4 (identity 1);
windows 1 and 3 are missing. -/
def track5 : List (ℕ × ℚ × ℤ) :=
  [(0, qhalf, 1), (2, 1, 1), (4, 1, 1)]

/-- C2 counterexample: with `treat_missing_as_gap`, `max_gap = 1`,
`min_windows = 1` and `min_length_bp = 1500`, the low threshold 1/2
starts its run at window 0, spends the gap budget early, splits into two
short candidates and emits nothing; the high threshold 3/4 starts at
window 2, keeps its budget, reaches the long windows and emits 2001
covered base pairs. -/
theorem C2_counterexample : ¬ RleThresholdMonotonicityClaim := by
  intro h
  have hle := h track5 wins5 1 1 1500 true 0 qhalf q34 (by decide)
  have h2 : total_covered (rle_segments_for_pair track5 wins5 q34 1 1 1500
      true 0) = 2001 := by decide
  have h1 : total_covered (rle_segments_for_pair track5 wins5 qhalf 1 1 1500
      true 0) = 0 := by decide
  omega

theorem total_covered_append (a b : List RleSeg) :
    total_covered (a ++ b) = total_covered a + total_covered b := by
  simp [total_covered]

theorem winD_length_nonneg (wins : List Win)
    (hLen : ∀ w ∈ wins, 0 ≤ w.length) (k : ℕ) :
    0 ≤ (winD wins k).length := by
  unfold winD
  by_cases hk : k < wins.length
  · rw [List.getD_eq_get _ _ hk]
    exact hLen _ (List.get_mem _ _ _)
  · rw [List.getD_eq_default _ _ (Nat.le_of_not_lt hk)]

theorem covered_nonneg (wins : List Win) (hLen : ∀ w ∈ wins, 0 ≤ w.length)
    (s e : ℕ) : 0 ≤ covered_bp_calc wins s e := by
  unfold covered_bp_calc
  apply List.sum_nonneg
  intro x hx
  obtain ⟨k, _, rfl⟩ := List.mem_map.mp hx
  exact winD_length_nonneg wins hLen k

theorem covered_split (wins : List Win) (s m e : ℕ) (h1 : s ≤ m + 1)
    (h2 : m ≤ e) :
    covered_bp_calc wins s e =
      covered_bp_calc wins s m + covered_bp_calc wins (m + 1) e := by
  unfold covered_bp_calc
  have h3 : e + 1 - s = (e - m) + (m + 1 - s) := by omega
  have h5 : s + 1 * (m + 1 - s) = m + 1 := by omega
  have h6 : e + 1 - (m + 1) = e - m := by omega
  rw [h3, ← List.range'_append, h5, List.map_append, List.sum_append, h6]

theorem covered_mono_right (wins : List Win)
    (hLen : ∀ w ∈ wins, 0 ≤ w.length) (s e e' : ℕ) (hse : s ≤ e + 1)
    (he : e ≤ e') : covered_bp_calc wins s e ≤ covered_bp_calc wins s e' := by
  rw [covered_split wins s e e' hse he]
  have h := covered_nonneg wins hLen (e + 1) e'
  omega

theorem covered_anti_left (wins : List Win)
    (hLen : ∀ w ∈ wins, 0 ≤ w.length) (s s' e : ℕ) (hs : s ≤ s')
    (hse : s' ≤ e + 1) :
    covered_bp_calc wins s' e ≤ covered_bp_calc wins s e := by
  rcases Nat.eq_or_lt_of_le hs with h | h
  · rw [h]
  · have hsplit := covered_split wins s (s' - 1) e (by omega) (by omega)
    have hnn := covered_nonneg wins hLen s (s' - 1)
    have hs1 : s' - 1 + 1 = s' := by omega
    rw [hs1] at hsplit
    omega

theorem covered_superadd (wins : List Win)
    (hLen : ∀ w ∈ wins, 0 ≤ w.length) (s m j e : ℕ) (h1 : s ≤ m + 1)
    (h2 : m < j) (h3 : j ≤ e) :
    covered_bp_calc wins s m + covered_bp_calc wins j e ≤
      covered_bp_calc wins s e := by
  have hsplit := covered_split wins s m e h1 (by omega)
  have hanti := covered_anti_left wins hLen (m + 1) j e (by omega) (by omega)
  omega

/-- The covered-bp contribution of closing a run `[s, e]`: its covered
base pairs when it passes the `min_windows`/`min_length_bp` filters,
`0` when it is discarded. -/
def rleF (wins : List Win) (mw : ℕ) (mlbp : ℤ) (s e : ℕ) : ℤ :=
  if mw ≤ e + 1 - s ∧ mlbp ≤ covered_bp_calc wins s e then
    covered_bp_calc wins s e
  else 0

theorem finalize_total (s e : ℕ) (wins : List Win) (called : ℕ)
    (ident_sum min_ident : ℚ) (mw : ℕ) (mlbp : ℤ) (g : ℕ) :
    total_covered (finalize_segment (s, e) wins called ident_sum min_ident mw
        mlbp g).toList = rleF wins mw mlbp s e := by
  by_cases h : mw ≤ e + 1 - s ∧ mlbp ≤ covered_bp_calc wins s e
  · simp [finalize_segment, rleF, total_covered, h]
  · simp [finalize_segment, rleF, total_covered, h]

theorem rleF_nonneg (wins : List Win) (hLen : ∀ w ∈ wins, 0 ≤ w.length)
    (mw : ℕ) (mlbp : ℤ) (s e : ℕ) : 0 ≤ rleF wins mw mlbp s e := by
  unfold rleF
  split
  · exact covered_nonneg wins hLen s e
  · exact le_refl 0

theorem rleF_mono_right (wins : List Win)
    (hLen : ∀ w ∈ wins, 0 ≤ w.length) (mw : ℕ) (mlbp : ℤ) (s e e' : ℕ)
    (hse : s ≤ e + 1) (he : e ≤ e') :
    rleF wins mw mlbp s e ≤ rleF wins mw mlbp s e' := by
  by_cases h : mw ≤ e + 1 - s ∧ mlbp ≤ covered_bp_calc wins s e
  · have hcov := covered_mono_right wins hLen s e e' hse he
    have h' : mw ≤ e' + 1 - s ∧ mlbp ≤ covered_bp_calc wins s e' :=
      ⟨by omega, le_trans h.2 hcov⟩
    unfold rleF
    rw [if_pos h, if_pos h']
    exact hcov
  · have hnn := rleF_nonneg wins hLen mw mlbp s e'
    unfold rleF
    rw [if_neg h]
    exact hnn

theorem rleF_anti_left (wins : List Win)
    (hLen : ∀ w ∈ wins, 0 ≤ w.length) (mw : ℕ) (mlbp : ℤ) (s s' e : ℕ)
    (hs : s ≤ s') (hse : s' ≤ e + 1) :
    rleF wins mw mlbp s' e ≤ rleF wins mw mlbp s e := by
  by_cases h : mw ≤ e + 1 - s' ∧ mlbp ≤ covered_bp_calc wins s' e
  · have hcov := covered_anti_left wins hLen s s' e hs hse
    have h' : mw ≤ e + 1 - s ∧ mlbp ≤ covered_bp_calc wins s e :=
      ⟨by omega, le_trans h.2 hcov⟩
    unfold rleF
    rw [if_pos h, if_pos h']
    exact hcov
  · have hnn := rleF_nonneg wins hLen mw mlbp s e
    unfold rleF
    rw [if_neg h]
    exact hnn

theorem rleF_superadd (wins : List Win)
    (hLen : ∀ w ∈ wins, 0 ≤ w.length) (mw : ℕ) (mlbp : ℤ) (s m j e : ℕ)
    (h1 : s ≤ m + 1) (h2 : m < j) (h3 : j ≤ e) :
    rleF wins mw mlbp s m + rleF wins mw mlbp j e ≤ rleF wins mw mlbp s e := by
  by_cases hsm : mw ≤ m + 1 - s ∧ mlbp ≤ covered_bp_calc wins s m
  · by_cases hje : mw ≤ e + 1 - j ∧ mlbp ≤ covered_bp_calc wins j e
    · have hsup := covered_superadd wins hLen s m j e h1 h2 h3
      have hnnj := covered_nonneg wins hLen j e
      obtain ⟨hsm1, hsm2⟩ := hsm
      have h' : mw ≤ e + 1 - s ∧ mlbp ≤ covered_bp_calc wins s e :=
        ⟨by omega, by omega⟩
      unfold rleF
      rw [if_pos ⟨hsm1, hsm2⟩, if_pos hje, if_pos h']
      omega
    · have hmono := rleF_mono_right wins hLen mw mlbp s m e h1 (by omega)
      have hje0 : rleF wins mw mlbp j e = 0 := by
        unfold rleF
        rw [if_neg hje]
      rw [hje0]
      omega
  · have hanti := rleF_anti_left wins hLen mw mlbp s j e (by omega) (by omega)
    have hsm0 : rleF wins mw mlbp s m = 0 := by
      unfold rleF
      rw [if_neg hsm]
    rw [hsm0]
    omega

theorem qualifies_mono (t1 t2 dt : ℚ) (id : Option ℚ) (h : t1 ≤ t2)
    (hq : qualifies t2 dt id = true) : qualifies t1 dt id = true := by
  cases id with
  | none => exact absurd hq (by simp [qualifies])
  | some q =>
    simp only [qualifies, Bool.or_eq_true, Bool.and_eq_true,
      decide_eq_true_eq] at hq ⊢
    rcases hq with h1 | ⟨h2, h3⟩
    · left
      linarith
    · right
      exact ⟨h2, by linarith⟩

/-- The extend-or-start test of the RLE scan: present and qualifying. -/
def rleGood (min_id dt : ℚ) (f : ℕ → Option ℚ) (i : ℕ) : Bool :=
  !(f i).isNone && qualifies min_id dt (f i)

/-- The state produced by one RLE step with `treat_missing_as_gap = false`
and a zero gap counter: extend/start on a good window, close/idle on a
bad one. -/
def rleStepNMG (wins : List Win) (min_id : ℚ) (mw : ℕ) (mlbp : ℤ)
    (dt : ℚ) (f : ℕ → Option ℚ) (st : RleState) (i : ℕ) : RleState :=
  match st.current with
  | none =>
      if rleGood min_id dt f i then
        { st with current := some (i, i), gaps := 0, called := 1,
                  ident_sum := (f i).getD 0, min_ident := (f i).getD 0 }
      else st
  | some (s, e) =>
      if rleGood min_id dt f i then
        { st with current := some (s, i), gaps := st.gaps,
                  called := st.called + 1,
                  ident_sum := st.ident_sum + (f i).getD 0,
                  min_ident := min st.min_ident ((f i).getD 0) }
      else
        { segments := st.segments ++ (finalize_segment (s, e) wins st.called
            st.ident_sum st.min_ident mw mlbp st.gaps).toList,
          current := none, gaps := 0, called := 0, ident_sum := 0,
          min_ident := 1 }

/-- With `treat_missing_as_gap = false` and a zero gap counter, the RLE
step agrees with `rleStepNMG`: the gap budget is never consulted. -/
theorem rleStep_no_missing_gap (wins : List Win) (min_id : ℚ)
    (max_gap mw : ℕ) (mlbp : ℤ) (dt : ℚ) (f : ℕ → Option ℚ)
    (st : RleState) (i : ℕ) (hgaps : st.gaps = 0) :
    rleStep wins min_id max_gap mw mlbp false dt f st i =
      rleStepNMG wins min_id mw mlbp dt f st i := by
  cases hcur : st.current with
  | none =>
    by_cases hg : rleGood min_id dt f i = true
    · have hg' := hg
      simp only [rleGood] at hg'
      simp [rleStep, rleStepNMG, rleGood, hcur, hg', hg]
    · have hgf : rleGood min_id dt f i = false := by
        cases hh : rleGood min_id dt f i
        · rfl
        · exact absurd hh hg
      have hgf' := hgf
      simp only [rleGood] at hgf'
      simp [rleStep, rleStepNMG, rleGood, hcur, hgf', hgf]
  | some cur =>
    obtain ⟨s, e⟩ := cur
    by_cases hg : rleGood min_id dt f i = true
    · have hg' := hg
      simp only [rleGood, Bool.and_eq_true, Bool.not_eq_true'] at hg'
      obtain ⟨hm, hq⟩ := hg'
      simp [rleStep, rleStepNMG, rleGood, hcur, hm, hq, hgaps, hg]
    · have hgf : rleGood min_id dt f i = false := by
        cases hh : rleGood min_id dt f i
        · rfl
        · exact absurd hh hg
      have hprop : ¬((f i).isSome = true ∧ qualifies min_id dt (f i) = true) := by
        rintro ⟨h1, h2⟩
        apply hg
        have hn : (f i).isNone = false := by
          cases hfi : f i
          · rw [hfi] at h1
            exact absurd h1 (by decide)
          · rfl
        simp [rleGood, hn, h2]
      simp [rleStep, rleStepNMG, rleGood, hcur, hgf, hprop]

/-- Simulation invariant between the scan at the lower threshold `t1`
(state `st1`) and at the higher threshold `t2` (state `st2`), after
processing windows `0, ..., i - 1` with `treat_missing_as_gap = false`.
Either both scans are idle and the lower threshold has already emitted at
least as much; or only the lower scan has an open run, which dominates
any run the higher scan could still open; or both runs are open with the
same end and the lower one started no later. -/
def SimInv (wins : List Win) (mw : ℕ) (mlbp : ℤ) (i : ℕ)
    (st1 st2 : RleState) : Prop :=
  st1.gaps = 0 ∧ st2.gaps = 0 ∧
  ((st1.current = none ∧ st2.current = none ∧
      total_covered st2.segments ≤ total_covered st1.segments) ∨
   (∃ s1 e, st1.current = some (s1, e) ∧ st2.current = none ∧
      e + 1 = i ∧ s1 ≤ e ∧
      (∀ e2, e ≤ e2 → total_covered st2.segments ≤
        total_covered st1.segments + rleF wins mw mlbp s1 e2) ∧
      (∀ j e2, i ≤ j → j ≤ e2 →
        total_covered st2.segments + rleF wins mw mlbp j e2 ≤
          total_covered st1.segments + rleF wins mw mlbp s1 e2)) ∨
   (∃ s1 s2 e, st1.current = some (s1, e) ∧ st2.current = some (s2, e) ∧
      e + 1 = i ∧ s1 ≤ s2 ∧ s2 ≤ e ∧
      (∀ e2, e ≤ e2 →
        total_covered st2.segments + rleF wins mw mlbp s2 e2 ≤
          total_covered st1.segments + rleF wins mw mlbp s1 e2)))

/-- One step of both scans preserves the simulation invariant. -/
theorem simInv_step (wins : List Win) (hLen : ∀ w ∈ wins, 0 ≤ w.length)
    (mw : ℕ) (mlbp : ℤ) (max_gap : ℕ) (dt t1 t2 : ℚ) (h12 : t1 ≤ t2)
    (f : ℕ → Option ℚ) (i : ℕ) (st1 st2 : RleState)
    (hinv : SimInv wins mw mlbp i st1 st2) :
    SimInv wins mw mlbp (i + 1)
      (rleStep wins t1 max_gap mw mlbp false dt f st1 i)
      (rleStep wins t2 max_gap mw mlbp false dt f st2 i) := by
  obtain ⟨hg1, hg2, hshape⟩ := hinv
  rw [rleStep_no_missing_gap wins t1 max_gap mw mlbp dt f st1 i hg1,
      rleStep_no_missing_gap wins t2 max_gap mw mlbp dt f st2 i hg2]
  by_cases hgood2 : rleGood t2 dt f i = true
  · have hgood1 : rleGood t1 dt f i = true := by
      have h2' := hgood2
      simp only [rleGood, Bool.and_eq_true] at h2' ⊢
      exact ⟨h2'.1, qualifies_mono t1 t2 dt (f i) h12 h2'.2⟩
    rcases hshape with ⟨hc1, hc2, htot⟩ | ⟨s1, e, hc1, hc2, hei, hs1e, hA, hB⟩ |
      ⟨s1, s2, e, hc1, hc2, hei, hs12, hs2e, hC⟩
    · have hE1 : rleStepNMG wins t1 mw mlbp dt f st1 i =
          { st1 with current := some (i, i), gaps := 0, called := 1,
                     ident_sum := (f i).getD 0, min_ident := (f i).getD 0 } := by
        simp [rleStepNMG, hc1, hgood1]
      have hE2 : rleStepNMG wins t2 mw mlbp dt f st2 i =
          { st2 with current := some (i, i), gaps := 0, called := 1,
                     ident_sum := (f i).getD 0, min_ident := (f i).getD 0 } := by
        simp [rleStepNMG, hc2, hgood2]
      rw [hE1, hE2]
      refine ⟨rfl, rfl, Or.inr (Or.inr
        ⟨i, i, i, rfl, rfl, rfl, le_refl i, le_refl i, ?_⟩)⟩
      intro e2' _
      show total_covered st2.segments + rleF wins mw mlbp i e2' ≤
        total_covered st1.segments + rleF wins mw mlbp i e2'
      omega
    · have hE1 : rleStepNMG wins t1 mw mlbp dt f st1 i =
          { st1 with current := some (s1, i), gaps := st1.gaps,
                     called := st1.called + 1,
                     ident_sum := st1.ident_sum + (f i).getD 0,
                     min_ident := min st1.min_ident ((f i).getD 0) } := by
        simp [rleStepNMG, hc1, hgood1]
      have hE2 : rleStepNMG wins t2 mw mlbp dt f st2 i =
          { st2 with current := some (i, i), gaps := 0, called := 1,
                     ident_sum := (f i).getD 0, min_ident := (f i).getD 0 } := by
        simp [rleStepNMG, hc2, hgood2]
      rw [hE1, hE2]
      refine ⟨hg1, rfl, Or.inr (Or.inr
        ⟨s1, i, i, rfl, rfl, rfl, by omega, le_refl i, ?_⟩)⟩
      intro e2' he2'
      show total_covered st2.segments + rleF wins mw mlbp i e2' ≤
        total_covered st1.segments + rleF wins mw mlbp s1 e2'
      exact hB i e2' (le_refl i) he2'
    · have hE1 : rleStepNMG wins t1 mw mlbp dt f st1 i =
          { st1 with current := some (s1, i), gaps := st1.gaps,
                     called := st1.called + 1,
                     ident_sum := st1.ident_sum + (f i).getD 0,
                     min_ident := min st1.min_ident ((f i).getD 0) } := by
        simp [rleStepNMG, hc1, hgood1]
      have hE2 : rleStepNMG wins t2 mw mlbp dt f st2 i =
          { st2 with current := some (s2, i), gaps := st2.gaps,
                     called := st2.called + 1,
                     ident_sum := st2.ident_sum + (f i).getD 0,
                     min_ident := min st2.min_ident ((f i).getD 0) } := by
        simp [rleStepNMG, hc2, hgood2]
      rw [hE1, hE2]
      refine ⟨hg1, hg2, Or.inr (Or.inr
        ⟨s1, s2, i, rfl, rfl, rfl, hs12, by omega, ?_⟩)⟩
      intro e2' he2'
      show total_covered st2.segments + rleF wins mw mlbp s2 e2' ≤
        total_covered st1.segments + rleF wins mw mlbp s1 e2'
      exact hC e2' (by omega)
  · have hgood2f : rleGood t2 dt f i = false := by
      cases hh : rleGood t2 dt f i
      · rfl
      · exact absurd hh hgood2
    by_cases hgood1 : rleGood t1 dt f i = true
    · rcases hshape with ⟨hc1, hc2, htot⟩ | ⟨s1, e, hc1, hc2, hei, hs1e, hA, hB⟩ |
        ⟨s1, s2, e, hc1, hc2, hei, hs12, hs2e, hC⟩
      · have hE1 : rleStepNMG wins t1 mw mlbp dt f st1 i =
            { st1 with current := some (i, i), gaps := 0, called := 1,
                       ident_sum := (f i).getD 0, min_ident := (f i).getD 0 } := by
          simp [rleStepNMG, hc1, hgood1]
        have hE2 : rleStepNMG wins t2 mw mlbp dt f st2 i = st2 := by
          simp [rleStepNMG, hc2, hgood2f]
        rw [hE1, hE2]
        refine ⟨rfl, hg2, Or.inr (Or.inl
          ⟨i, i, rfl, hc2, rfl, le_refl i, ?_, ?_⟩)⟩
        · intro e2' _
          show total_covered st2.segments ≤
            total_covered st1.segments + rleF wins mw mlbp i e2'
          have hnn := rleF_nonneg wins hLen mw mlbp i e2'
          omega
        · intro j e2' hj he2'
          show total_covered st2.segments + rleF wins mw mlbp j e2' ≤
            total_covered st1.segments + rleF wins mw mlbp i e2'
          have hanti := rleF_anti_left wins hLen mw mlbp i j e2' (by omega)
            (by omega)
          omega
      · have hE1 : rleStepNMG wins t1 mw mlbp dt f st1 i =
            { st1 with current := some (s1, i), gaps := st1.gaps,
                       called := st1.called + 1,
                       ident_sum := st1.ident_sum + (f i).getD 0,
                       min_ident := min st1.min_ident ((f i).getD 0) } := by
          simp [rleStepNMG, hc1, hgood1]
        have hE2 : rleStepNMG wins t2 mw mlbp dt f st2 i = st2 := by
          simp [rleStepNMG, hc2, hgood2f]
        rw [hE1, hE2]
        refine ⟨hg1, hg2, Or.inr (Or.inl
          ⟨s1, i, rfl, hc2, rfl, by omega, ?_, ?_⟩)⟩
        · intro e2' he2'
          show total_covered st2.segments ≤
            total_covered st1.segments + rleF wins mw mlbp s1 e2'
          exact hA e2' (by omega)
        · intro j e2' hj he2'
          show total_covered st2.segments + rleF wins mw mlbp j e2' ≤
            total_covered st1.segments + rleF wins mw mlbp s1 e2'
          exact hB j e2' (by omega) he2'
      · have hE1 : rleStepNMG wins t1 mw mlbp dt f st1 i =
            { st1 with current := some (s1, i), gaps := st1.gaps,
                       called := st1.called + 1,
                       ident_sum := st1.ident_sum + (f i).getD 0,
                       min_ident := min st1.min_ident ((f i).getD 0) } := by
          simp [rleStepNMG, hc1, hgood1]
        have hE2 : rleStepNMG wins t2 mw mlbp dt f st2 i =
            { segments := st2.segments ++ (finalize_segment (s2, e) wins
                st2.called st2.ident_sum st2.min_ident mw mlbp
                st2.gaps).toList,
              current := none, gaps := 0, called := 0, ident_sum := 0,
              min_ident := 1 } := by
          simp [rleStepNMG, hc2, hgood2f]
        rw [hE1, hE2]
        refine ⟨hg1, rfl, Or.inr (Or.inl
          ⟨s1, i, rfl, rfl, rfl, by omega, ?_, ?_⟩)⟩
        · intro e2' he2'
          show total_covered (st2.segments ++ (finalize_segment (s2, e) wins
              st2.called st2.ident_sum st2.min_ident mw mlbp
              st2.gaps).toList) ≤
            total_covered st1.segments + rleF wins mw mlbp s1 e2'
          rw [total_covered_append, finalize_total]
          have h1 := hC e (le_refl e)
          have h2 := rleF_mono_right wins hLen mw mlbp s1 e e2' (by omega)
            (by omega)
          omega
        · intro j e2' hj he2'
          show total_covered (st2.segments ++ (finalize_segment (s2, e) wins
              st2.called st2.ident_sum st2.min_ident mw mlbp
              st2.gaps).toList) + rleF wins mw mlbp j e2' ≤
            total_covered st1.segments + rleF wins mw mlbp s1 e2'
          rw [total_covered_append, finalize_total]
          have hsup := rleF_superadd wins hLen mw mlbp s2 e j e2' (by omega)
            (by omega) he2'
          have h3 := hC e2' (by omega)
          omega
    · have hgood1f : rleGood t1 dt f i = false := by
        cases hh : rleGood t1 dt f i
        · rfl
        · exact absurd hh hgood1
      rcases hshape with ⟨hc1, hc2, htot⟩ | ⟨s1, e, hc1, hc2, hei, hs1e, hA, hB⟩ |
        ⟨s1, s2, e, hc1, hc2, hei, hs12, hs2e, hC⟩
      · have hE1 : rleStepNMG wins t1 mw mlbp dt f st1 i = st1 := by
          simp [rleStepNMG, hc1, hgood1f]
        have hE2 : rleStepNMG wins t2 mw mlbp dt f st2 i = st2 := by
          simp [rleStepNMG, hc2, hgood2f]
        rw [hE1, hE2]
        exact ⟨hg1, hg2, Or.inl ⟨hc1, hc2, htot⟩⟩
      · have hE1 : rleStepNMG wins t1 mw mlbp dt f st1 i =
            { segments := st1.segments ++ (finalize_segment (s1, e) wins
                st1.called st1.ident_sum st1.min_ident mw mlbp
                st1.gaps).toList,
              current := none, gaps := 0, called := 0, ident_sum := 0,
              min_ident := 1 } := by
          simp [rleStepNMG, hc1, hgood1f]
        have hE2 : rleStepNMG wins t2 mw mlbp dt f st2 i = st2 := by
          simp [rleStepNMG, hc2, hgood2f]
        rw [hE1, hE2]
        refine ⟨rfl, hg2, Or.inl ⟨rfl, hc2, ?_⟩⟩
        show total_covered st2.segments ≤
          total_covered (st1.segments ++ (finalize_segment (s1, e) wins
            st1.called st1.ident_sum st1.min_ident mw mlbp st1.gaps).toList)
        rw [total_covered_append, finalize_total]
        exact hA e (le_refl e)
      · have hE1 : rleStepNMG wins t1 mw mlbp dt f st1 i =
            { segments := st1.segments ++ (finalize_segment (s1, e) wins
                st1.called st1.ident_sum st1.min_ident mw mlbp
                st1.gaps).toList,
              current := none, gaps := 0, called := 0, ident_sum := 0,
              min_ident := 1 } := by
          simp [rleStepNMG, hc1, hgood1f]
        have hE2 : rleStepNMG wins t2 mw mlbp dt f st2 i =
            { segments := st2.segments ++ (finalize_segment (s2, e) wins
                st2.called st2.ident_sum st2.min_ident mw mlbp
                st2.gaps).toList,
              current := none, gaps := 0, called := 0, ident_sum := 0,
              min_ident := 1 } := by
          simp [rleStepNMG, hc2, hgood2f]
        rw [hE1, hE2]
        refine ⟨rfl, rfl, Or.inl ⟨rfl, rfl, ?_⟩⟩
        show total_covered (st2.segments ++ (finalize_segment (s2, e) wins
            st2.called st2.ident_sum st2.min_ident mw mlbp
            st2.gaps).toList) ≤
          total_covered (st1.segments ++ (finalize_segment (s1, e) wins
            st1.called st1.ident_sum st1.min_ident mw mlbp st1.gaps).toList)
        rw [total_covered_append, total_covered_append, finalize_total,
          finalize_total]
        exact hC e (le_refl e)

/-- Total covered bp after the end-of-scan flush of the final state. -/
def rleFinal (wins : List Win) (mw : ℕ) (mlbp : ℤ) (st : RleState) : ℤ :=
  match st.current with
  | some (s, e) => total_covered st.segments + rleF wins mw mlbp s e
  | none => total_covered st.segments

theorem rleFinal_eq_none (wins : List Win) (mw : ℕ) (mlbp : ℤ)
    (st : RleState) (h : st.current = none) :
    rleFinal wins mw mlbp st = total_covered st.segments := by
  unfold rleFinal
  rw [h]

theorem rleFinal_eq_some (wins : List Win) (mw : ℕ) (mlbp : ℤ)
    (st : RleState) (s e : ℕ) (h : st.current = some (s, e)) :
    rleFinal wins mw mlbp st =
      total_covered st.segments + rleF wins mw mlbp s e := by
  unfold rleFinal
  rw [h]

theorem total_rle_segments (track_list : List (ℕ × ℚ × ℤ))
    (wins : List Win) (t : ℚ) (max_gap mw : ℕ) (mlbp : ℤ) (dt : ℚ) :
    total_covered
        (rle_segments_for_pair track_list wins t max_gap mw mlbp false dt) =
      rleFinal wins mw mlbp (rleScan wins t max_gap mw mlbp false dt
        (identByIdx track_list) wins.length) := by
  simp only [rle_segments_for_pair, rleFinal]
  cases hcur : (rleScan wins t max_gap mw mlbp false dt
      (identByIdx track_list) wins.length).current with
  | none => rfl
  | some cur =>
    obtain ⟨s, e⟩ := cur
    rw [total_covered_append, finalize_total]

/-- C2 amended: with `treat_missing_as_gap = false` (so that missing
windows always close the active run and the gap budget is never spent)
and nonnegative window lengths, raising `min_identity` can only decrease
the total covered base pairs of the emitted segments, for any fixed
`max_gap`, `min_windows`, `min_length_bp` and `drop_tolerance`. -/
theorem C2_amended_threshold_monotone (track_list : List (ℕ × ℚ × ℤ))
    (wins : List Win) (max_gap mw : ℕ) (mlbp : ℤ) (dt t1 t2 : ℚ)
    (hLen : ∀ w ∈ wins, 0 ≤ w.length) (h12 : t1 ≤ t2) :
    total_covered (rle_segments_for_pair track_list wins t2 max_gap mw mlbp
        false dt) ≤
      total_covered (rle_segments_for_pair track_list wins t1 max_gap mw
        mlbp false dt) := by
  rw [total_rle_segments, total_rle_segments]
  have main : ∀ n, SimInv wins mw mlbp n
      (rleScan wins t1 max_gap mw mlbp false dt (identByIdx track_list) n)
      (rleScan wins t2 max_gap mw mlbp false dt (identByIdx track_list) n) := by
    intro n
    induction n with
    | zero => exact ⟨rfl, rfl, Or.inl ⟨rfl, rfl, le_refl 0⟩⟩
    | succ n ih =>
      rw [rleScan_succ, rleScan_succ]
      exact simInv_step wins hLen mw mlbp max_gap dt t1 t2 h12
        (identByIdx track_list) n _ _ ih
  obtain ⟨hgf1, hgf2, hshape⟩ := main wins.length
  rcases hshape with ⟨hc1, hc2, htot⟩ | ⟨s1, e, hc1, hc2, hei, hs1e, hA, hB⟩ |
    ⟨s1, s2, e, hc1, hc2, hei, hs12, hs2e, hC⟩
  · rw [rleFinal_eq_none _ _ _ _ hc1, rleFinal_eq_none _ _ _ _ hc2]
    exact htot
  · rw [rleFinal_eq_some _ _ _ _ s1 e hc1, rleFinal_eq_none _ _ _ _ hc2]
    exact hA e (le_refl e)
  · rw [rleFinal_eq_some _ _ _ _ s1 e hc1, rleFinal_eq_some _ _ _ _ s2 e hc2]
    exact hC e (le_refl e)

/-- Witness: the amended C2 theorem applied at a concrete instance. -/
theorem C2_amended_threshold_monotone_witness :
    total_covered (rle_segments_for_pair track2 wins2 q9998 2 1 0
        false 0) ≤
      total_covered (rle_segments_for_pair track2 wins2 q9950 2 1 0
        false 0) :=
  C2_amended_threshold_monotone track2 wins2 2 1 0 0 q9950 q9998
    (by decide) (by decide)

/-- C5: seed containment. If window starts and stops are sorted by index,
then every segment emitted by the seed-and-extend caller contains, within
its base-pair range `[seg.start, seg.stop]`, a full seed run: at least
`seed_k` consecutive window indices, each present in the track with
identity at or above `seed_threshold`, every one of whose windows lies
inside the segment. -/
theorem C5_seed_containment (track_list : List (ℕ × ℚ × ℤ))
    (wins : List Win) (seed_thr et xd rw pb pm : ℚ) (seed_k mw : ℕ)
    (mlbp : ℤ) (tmg : Bool)
    (hsort : ∀ i j, i ≤ j → j < wins.length →
      (winD wins i).start ≤ (winD wins j).start ∧
      (winD wins i).stop ≤ (winD wins j).stop) :
    ∀ seg ∈ seed_extend_segments_for_pair track_list wins seed_thr seed_k
        et xd rw pb pm mw mlbp tmg,
      ∃ s e, s ≤ e ∧ e < wins.length ∧ seed_k ≤ e + 1 - s ∧
        ∀ k, s ≤ k → k ≤ e →
          (∃ q, identByIdx track_list k = some q ∧ seed_thr ≤ q) ∧
          seg.start ≤ (winD wins k).start ∧
          (winD wins k).stop ≤ seg.stop := by
  intro seg hseg
  obtain ⟨cand, hcand, hcov⟩ := seed_extend_segments_ok track_list wins
    seed_thr seed_k et xd rw pb pm mw mlbp tmg seg hseg
  obtain ⟨bl, br, s, e, hsum, hbl, hse, hebr, hbrn, hk, hrun, _, _⟩ := hcand
  refine ⟨s, e, hse, by omega, hk, ?_⟩
  intro k hk1 hk2
  refine ⟨hrun k hk1 hk2, ?_, ?_⟩
  · have hcs : cand.start = (winD wins bl).start := by
      rw [hsum]
      rfl
    calc seg.start ≤ cand.start := hcov.2.1
      _ = (winD wins bl).start := hcs
      _ ≤ (winD wins k).start := (hsort bl k (by omega) (by omega)).1
  · have hcp : cand.stop = (winD wins br).stop := by
      rw [hsum]
      rfl
    calc (winD wins k).stop ≤ (winD wins br).stop :=
        (hsort k br (by omega) hbrn).2
      _ = cand.stop := hcp.symm
      _ ≤ seg.stop := hcov.2.2.1

/-- The head segment of a concrete seed-and-extend run, used to witness
C5 at a concrete input. -/
def c5seg : SeedSeg :=
  (seed_extend_segments_for_pair track2 wins2 qhalf 2 qhalf 1 1 0 0 1 0
    false).head (by decide)

/-- Witness: C5 applied to a concrete emitted segment. -/
theorem C5_seed_containment_witness :
    ∃ s e, s ≤ e ∧ e < wins2.length ∧ 2 ≤ e + 1 - s ∧
      ∀ k, s ≤ k → k ≤ e →
        (∃ q, identByIdx track2 k = some q ∧ qhalf ≤ q) ∧
        c5seg.start ≤ (winD wins2 k).start ∧
        (winD wins2 k).stop ≤ c5seg.stop :=
  C5_seed_containment track2 wins2 qhalf qhalf 1 1 0 0 2 1 0 false
    (by
      intro i j hij hj
      have h2 : wins2.length = 2 := rfl
      rw [h2] at hj
      interval_cases j <;> interval_cases i <;> exact ⟨by decide, by decide⟩)
    c5seg (List.head_mem (by decide))
